import Mathlib

set_option maxHeartbeats 1000000

/-
Verification of the markdown formatter (src/pygments/formatters/markdown.py)
and the Java line classifier (src/JavaChecker.py).

Source text is modelled as a list of characters (`Str`); Python string
operations used by the code are given faithful counterparts below (ASCII
model of character classes).
-/

/-- Source text: a run of characters. -/
abbrev Str := List Char

/-- Python `pat in s` (substring containment). -/
def isInfixStr (pat : Str) : Str → Bool
  | [] => pat.isEmpty
  | c :: t => pat.isPrefixOf (c :: t) || isInfixStr pat t

/-- Python `s.endswith(pat)`. -/
def endsW (s pat : Str) : Bool := pat.reverse.isPrefixOf s.reverse

/-- Python `s.lstrip()`. -/
def pyLStrip (s : Str) : Str := s.dropWhile Char.isWhitespace

/-- Python `s.rstrip()`. -/
def pyRStrip (s : Str) : Str := (s.reverse.dropWhile Char.isWhitespace).reverse

/-- Python `s.strip()`. -/
def pyStrip (s : Str) : Str := pyRStrip (pyLStrip s)

/-- Python `s.split('\n')`: the pieces of `s` between newline characters.
`splitNl s` is always non-empty, and the pieces contain no newline. -/
def splitNl : Str → List Str
  | [] => [[]]
  | c :: rest =>
    match splitNl rest with
    | [] => [[]]
    | p :: ps => if c = '\n' then [] :: p :: ps else (c :: p) :: ps

/-- Auxiliary for `pySplitWs`: accumulates the current (reversed) word. -/
def pySplitWsAux (cur : Str) : Str → List Str
  | [] => if cur = [] then [] else [cur.reverse]
  | c :: t =>
    if c.isWhitespace then
      if cur = [] then pySplitWsAux [] t else cur.reverse :: pySplitWsAux [] t
    else pySplitWsAux (c :: cur) t

/-- Python `s.split()` (no separator: split on whitespace runs, dropping empties). -/
def pySplitWs (s : Str) : List Str := pySplitWsAux [] s

/-- Python `s.lower()` (ASCII model). -/
def lowerStr (s : Str) : Str := s.map Char.toLower

/-- Python `s.isidentifier()` (ASCII model: letter or underscore, then
letters, digits or underscores). -/
def pyIsIdentifier (s : Str) : Bool :=
  match s with
  | [] => false
  | c :: t => (c.isAlpha || c = '_') && t.all (fun d => d.isAlphanum || d = '_')

/-- The Pygments token categories referenced by the formatter
(pygments.token objects; comparison in the source is equality on these). -/
inductive TType
  | Text
  | Whitespace
  | Error
  | Other
  | Keyword
  | KeywordConstant
  | KeywordDeclaration
  | KeywordNamespace
  | KeywordPseudo
  | KeywordReserved
  | KeywordType
  | Name
  | NameAttribute
  | NameBuiltin
  | NameBuiltinPseudo
  | NameBuiltinType
  | NameClass
  | NameConstant
  | NameDecorator
  | NameEntity
  | NameException
  | NameFunction
  | NameFunctionMagic
  | NameLabel
  | NameNamespace
  | NameOther
  | NameProperty
  | NameTag
  | NameVariable
  | NameVariableClass
  | NameVariableGlobal
  | NameVariableInstance
  | NameVariableMagic
  | StringT
  | StringBacktick
  | StringChar
  | StringDoc
  | StringDouble
  | StringEscape
  | StringHeredoc
  | StringInterpol
  | StringOther
  | StringRegex
  | StringSingle
  | StringSymbol
  | NumberT
  | NumberBin
  | NumberFloat
  | NumberHex
  | NumberInteger
  | NumberIntegerLong
  | NumberOct
  | Operator
  | OperatorWord
  | Punctuation
  | Comment
  | CommentMultiline
  | CommentPreproc
  | CommentPreprocFile
  | CommentSingle
  | CommentSpecial
  | Generic
  | GenericDeleted
  | GenericEmph
  | GenericError
  | GenericHeading
  | GenericInserted
  | GenericOutput
  | GenericPrompt
  | GenericStrong
  | GenericSubheading
  | GenericTraceback
deriving DecidableEq, Repr

/-- A lexer token: `(category, text)` (markdown.py works on such pairs). -/
abbrev Token := TType × Str

/-- Out-of-range token accesses never happen in the source (every access is
guarded by an index check); the default is irrelevant. -/
def tokAt (tokens : List Token) (i : Nat) : Token := tokens.getD i (.Text, [])

/-- `MarkdownFormatter._get_markdown_style` (markdown.py lines 104-202):
token category to inline-markup `(pre, suf)` delimiters.  Dict entries whose
value is `('', '')` coincide with the `.get` default and are folded into the
catch-all arm. -/
def _get_markdown_style (inline_styles : Bool) (ttype : TType) : Str × Str :=
  if ¬ inline_styles then ([], []) else
  match ttype with
  | .Comment | .CommentSingle | .CommentMultiline | .CommentPreproc
  | .CommentPreprocFile | .CommentSpecial => ("*".toList, "*".toList)
  | .Keyword | .KeywordConstant | .KeywordDeclaration | .KeywordNamespace
  | .KeywordPseudo | .KeywordReserved | .KeywordType => ("**".toList, "**".toList)
  | .Error => ("~~".toList, "~~".toList)
  | .GenericDeleted | .GenericError => ("~~".toList, "~~".toList)
  | .GenericEmph | .GenericTraceback => ("*".toList, "*".toList)
  | .GenericHeading | .GenericPrompt | .GenericStrong
  | .GenericSubheading => ("**".toList, "**".toList)
  | _ => ([], [])

/-- Callable-introducer keywords (markdown.py line 229). -/
def introducerKws : List Str :=
  (["def", "function", "fn", "func", "method", "proc", "procedure", "sub",
    "subroutine"]).map String.toList

/-- Access/type modifier literals looked for before a plain name
(markdown.py line 245). -/
def modifierLits : List Str :=
  (["public", "private", "protected", "static", "void", "int", "string",
    "bool", "float", "double"]).map String.toList

/-- Structural loop body for `skipWs`; `gas` is exactly
`tokens.length - i`, so running out of gas coincides with the bound check. -/
def skipWsAux (tokens : List Token) : Nat → Nat → Nat
  | 0, i => i
  | gas + 1, i =>
    if i < tokens.length then
      if (tokAt tokens i).1 = .Whitespace then skipWsAux tokens gas (i + 1) else i
    else i

/-- Skip whitespace tokens (markdown.py lines 221-222, 252-253): first index
at or after `i` whose token is not `Whitespace`, or the stream length. -/
def skipWs (tokens : List Token) (i : Nat) : Nat :=
  skipWsAux tokens (tokens.length - i) i

/-- Head detection (markdown.py lines 227-246).  Returns
`(found_def, next index)`: a callable-introducer keyword advances past the
keyword; a plain name preceded (within a 5-token non-whitespace look-back)
by a type category or a modifier literal counts as an implicit head without
consuming a token. -/
def headCheck (tokens : List Token) (i : Nat) : Bool × Nat :=
  let t := tokAt tokens i
  if (t.1 = .Keyword ∨ t.1 = .KeywordDeclaration)
      ∧ introducerKws.contains (lowerStr t.2) then (true, i + 1)
  else if t.1 = .Name ∧ 0 < i then
    let prevToks := ((tokens.take i).drop (i - 5)).filter (fun p => p.1 ≠ .Whitespace)
    match prevToks.getLast? with
    | some lastTok =>
      if lastTok.1 = .KeywordType ∨ lastTok.1 = .NameBuiltinType
          ∨ lastTok.1 = .Keyword ∨ modifierLits.contains lastTok.2
      then (true, i) else (false, i)
    | none => (false, i)
  else (false, i)

/-- Stages S0-S2 of `_is_function_definition` (lines 220-266): skip leading
whitespace, detect a head, skip whitespace, require a name-category token.
Returns the candidate name and the index just past it. -/
def scanHead (tokens : List Token) (start_idx : Nat) : Option (Str × Nat) :=
  let i0 := skipWs tokens start_idx
  if i0 < tokens.length then
    let hc := headCheck tokens i0
    if hc.1 then
      let i2 := skipWs tokens hc.2
      if i2 < tokens.length then
        let t2 := tokAt tokens i2
        if t2.1 = .Name ∨ t2.1 = .NameFunction ∨ t2.1 = .NameOther then
          some (t2.2, i2 + 1)
        else none
      else none
    else none
  else none

/-- Structural loop body for `seekParen` (`gas = tokens.length - i`). -/
def seekParenAux (tokens : List Token) : Nat → Nat → Option Nat
  | 0, _ => none
  | gas + 1, i =>
    if i < tokens.length then
      let t := tokAt tokens i
      if t.1 = .Punctuation ∧ t.2 = "(".toList then some i
      else if t.1 ≠ .Whitespace then none
      else seekParenAux tokens gas (i + 1)
    else none

/-- The loop looking for the opening parenthesis (lines 269-271, 304-306):
skips whitespace tokens; a `Punctuation` token `'('` succeeds with its
index; any other non-whitespace token (or stream end) fails. -/
def seekParen (tokens : List Token) (i : Nat) : Option Nat :=
  seekParenAux tokens (tokens.length - i) i

/-- Structural loop body for `paramScan` (`gas = tokens.length - i`). -/
def paramScanAux (tokens : List Token) : Nat → Nat → Nat → List Token → List Token × Nat
  | 0, i, _, acc => (acc, i)
  | gas + 1, i, depth, acc =>
    if depth = 0 then (acc, i)
    else if i < tokens.length then
      let t := tokAt tokens i
      let depth2 :=
        if t.1 = .Punctuation then
          if t.2 = "(".toList then depth + 1
          else if t.2 = ")".toList then depth - 1
          else depth
        else depth
      let acc2 := if 0 < depth2 then acc ++ [t] else acc
      paramScanAux tokens gas (i + 1) depth2 acc2
    else (acc, i)

/-- Parameter scan (lines 273-289): depth counter over parentheses,
collecting the tokens seen while the depth stays positive.  Returns the
collected tokens and the index after the loop. -/
def paramScan (tokens : List Token) (i depth : Nat) (acc : List Token) :
    List Token × Nat :=
  paramScanAux tokens (tokens.length - i) i depth acc

/-- Parameter-text normalisation (lines 292-294): join the collected texts,
strip, and collapse whitespace runs to single spaces. -/
def normalizeParams (ptoks : List Token) : Str :=
  List.intercalate [' '] (pySplitWs (pyStrip ((ptoks.map Prod.snd).flatten)))

/-- Structural loop body for `findTerminator` (`gas = tokens.length - i`). -/
def findTerminatorAux (tokens : List Token) : Nat → Nat → Nat
  | 0, i => i
  | gas + 1, i =>
    if i < tokens.length then
      let v := (tokAt tokens i).2
      if v = ":".toList ∨ v = "\x7b".toList ∨ v = ";".toList ∨ v = "\n".toList then i
      else findTerminatorAux tokens gas (i + 1)
    else i

/-- Terminator scan (lines 296-303): from `i`, the first index whose token
text is exactly `":"`, `"{"`, `";"` or `"\n"`, or the stream length. -/
def findTerminator (tokens : List Token) (i : Nat) : Nat :=
  findTerminatorAux tokens (tokens.length - i) i

/-- Result tuple of `_is_function_definition`
(`(is_function, function_name, parameters, end_idx)`). -/
structure ScanResult where
  is_function : Bool
  function_name : Option Str
  parameters : Option Str
  end_idx : Nat
deriving DecidableEq, Repr

/-- `MarkdownFormatter._is_function_definition` (markdown.py lines 204-308). -/
def _is_function_definition (highlight_functions : Bool) (tokens : List Token)
    (start_idx : Nat) : ScanResult :=
  if ¬ highlight_functions then ⟨false, none, none, start_idx⟩
  else
    match scanHead tokens start_idx with
    | none => ⟨false, none, none, start_idx⟩
    | some (fname, i3) =>
      match seekParen tokens i3 with
      | none => ⟨false, none, none, start_idx⟩
      | some pIdx =>
        let ps := paramScan tokens (pIdx + 1) 1 []
        ⟨true, some fname, some (normalizeParams ps.1), findTerminator tokens ps.2⟩

/-- The index just past the closing parenthesis reached by a scan, when the
scan gets that far (the prefix of `_is_function_definition` up to stage S4). -/
def scanPastParen (tokens : List Token) (start_idx : Nat) : Option Nat :=
  match scanHead tokens start_idx with
  | none => none
  | some (_, i3) =>
    match seekParen tokens i3 with
    | none => none
    | some pIdx => some (paramScan tokens (pIdx + 1) 1 []).2

/-- A Signature Record (markdown.py lines 351-358). -/
structure SigRec where
  name : Str
  parameters : Str
  start_idx : Nat
  end_idx : Nat
  line_num : Nat
  signature : Str
deriving DecidableEq, Repr

/-- Line number of the token at index `i` (lines 345-349): one plus the
newlines in the texts of the preceding tokens. -/
def lineNumAt (tokens : List Token) (i : Nat) : Nat :=
  1 + ((tokens.take i).map (fun t => t.2.count '\n')).sum

/-- `''.join(token[1] for token in tokens[i:j])`. -/
def sliceText (tokens : List Token) (i j : Nat) : Str :=
  (((tokens.take j).drop i).map Prod.snd).flatten

/-- The discovery pre-pass loop (markdown.py lines 340-361), fuelled: on a
successful scan record a signature and resume at its `end_idx`, otherwise
advance one index.  `tokens.length + 1` fuel is enough (scan successes move
strictly forward; see `c9_scanner_progress`). -/
def prePassAux (tokens : List Token) : Nat → Nat → List SigRec
  | 0, _ => []
  | fuel + 1, i =>
    if i < tokens.length then
      let r := _is_function_definition true tokens i
      if r.is_function then
        { name := r.function_name.getD []
          parameters := r.parameters.getD []
          start_idx := i
          end_idx := r.end_idx
          line_num := lineNumAt tokens i
          signature := sliceText tokens i r.end_idx } :: prePassAux tokens fuel r.end_idx
      else prePassAux tokens fuel (i + 1)
    else []

/-- The signature list built by `format_unencoded` (lines 338-361): empty
unless `highlight_functions` is on. -/
def function_signatures (highlight_functions : Bool) (tokens : List Token) :
    List SigRec :=
  if highlight_functions then prePassAux tokens (tokens.length + 1) 0 else []

/-- `function_style` option values. -/
inductive FStyle
  | callout
  | emphasis
  | heading
deriving DecidableEq, Repr

/-- The normalized render configuration (the option values after the
fallbacks of `__init__`, lines 72-102; `hl_lines` models the set as a
duplicate-free list). -/
structure Config where
  lang : Str
  linenos : Bool
  linenostart : Nat
  hl_lines : List Nat
  inline_styles : Bool
  fence_char : Char
  fence_count : Nat
  full : Bool
  title : Str
  highlight_functions : Bool
  function_style : FStyle
deriving DecidableEq, Repr

/-- The documented defaults. -/
def defaultConfig : Config :=
  { lang := []
    linenos := false
    linenostart := 1
    hl_lines := []
    inline_styles := false
    fence_char := '`'
    fence_count := 3
    full := false
    title := "Code".toList
    highlight_functions := true
    function_style := .emphasis }

/-- The marker a rendered code line ends with (lines 545-552). -/
inductive LineMark
  | plain
  | highlighted
  | funcMarker (fname : Str)
deriving DecidableEq, Repr

/-- One write of `format_unencoded`/`_write_line`, structured.  `codeLine`
keeps the styled content and, separately, the raw (markup-free) token text
of the line, plus the assigned line number. -/
inductive OutItem
  | titleLine (title : Str)
  | genNote
  | funcsFoundHeader
  | funcsFoundEntry (name params : Str) (lineNum : Nat)
  | blankLine
  | fenceOpen
  | fenceCloseBlank
  | fenceCloseFinal
  | calloutFuncName (name : Str)
  | calloutLineNum (n : Nat)
  | headingText (name : Str)
  | codeLine (num : Nat) (showNum : Bool) (content raw : Str) (mark : LineMark)
  | hlComment (ls : List Nat)
  | funcsTrailerHeader
  | funcsTrailerEntry (name params : Str) (lineNum : Nat)
deriving DecidableEq, Repr

/-- A piece appended to `current_line`: the styled text the source stores
(lines 426-433 etc.) together with the underlying raw token text. -/
structure LinePart where
  styled : Str
  raw : Str
deriving DecidableEq, Repr

/-- Build the `current_line` entry for one piece of token text
(lines 425-433, 441-450, 456-464, 466-475). -/
def mkPart (cfg : Config) (ttype : TType) (piece : Str) : LinePart :=
  if cfg.inline_styles then
    let ps := _get_markdown_style cfg.inline_styles ttype
    if ps.1 ≠ [] ∨ ps.2 ≠ [] then ⟨ps.1 ++ piece ++ ps.2, piece⟩ else ⟨piece, piece⟩
  else ⟨piece, piece⟩

/-- Keywords looked for in a line's text by `_write_line` (line 532). -/
def fnLineKws : List Str :=
  (["def ", "function ", "fn ", "func ", "method ", "proc ", "procedure ",
    "sub "]).map String.toList

/-- The token-window walk of `_write_line` (lines 513-528): collect the
tokens attributed to the current line, tracking a running line count and
stopping once past it.  `gas` is exactly `stop + 1 - i`, so running out of
gas coincides with the `i <= stop` loop condition failing. -/
def lineTokensAux (tokens : List Token) (lineNo : Nat) :
    Nat → Nat → Nat → List Token → List Token
  | 0, _, _, acc => acc
  | gas + 1, i, temp, acc =>
    if i < tokens.length then
      let t := tokAt tokens i
      if t.2.contains '\n' then
        let acc2 := if temp = lineNo then acc ++ [(t.1, (splitNl t.2).headD [])] else acc
        let temp2 := temp + t.2.count '\n'
        if lineNo < temp2 then acc2
        else lineTokensAux tokens lineNo gas (i + 1) temp2 acc2
      else
        let acc2 := if temp = lineNo then acc ++ [t] else acc
        lineTokensAux tokens lineNo gas (i + 1) temp acc2
    else lineTokensAux tokens lineNo gas (i + 1) temp acc

/-- The emphasis-style function-line detection of `_write_line`
(lines 512-538): whether the line around `token_idx` contains a callable
keyword, and the detected function name (`""` when none is found). -/
def isFunctionLineInfo (tokens : List Token) (token_idx lineNo : Nat) :
    Bool × Str :=
  let stop := min (tokens.length - 1) (token_idx + 10)
  let lt := lineTokensAux tokens lineNo (stop + 1 - (token_idx - 10))
    (token_idx - 10) lineNo []
  let lineText := pyStrip ((lt.map Prod.snd).flatten)
  if fnLineKws.any (fun kw => isInfixStr kw lineText) then
    match lt.find? (fun t => (t.1 = .NameFunction ∨ t.1 = .Name) ∧ pyIsIdentifier t.2) with
    | some t => (true, t.2)
    | none => (true, [])
  else (false, [])

/-- `MarkdownFormatter._write_line` (markdown.py lines 500-552).  `tokCtx`
is `(tokens, token_idx)` when those arguments are passed (`none` models the
`tokens=None` flush call of the splice branches). -/
def _write_line (cfg : Config) (lineParts : List LinePart) (line_number : Nat)
    (tokCtx : Option (List Token × Nat)) : OutItem :=
  let content := (lineParts.map LinePart.styled).flatten
  let raw := (lineParts.map LinePart.raw).flatten
  let fnInfo :=
    if cfg.highlight_functions ∧ cfg.function_style = .emphasis then
      match tokCtx with
      | some (tokens, token_idx) =>
        if tokens ≠ [] then isFunctionLineInfo tokens token_idx line_number
        else (false, [])
      | none => (false, [])
    else (false, [])
  let mark :=
    if fnInfo.1 ∧ cfg.function_style = .emphasis then LineMark.funcMarker fnInfo.2
    else if cfg.hl_lines.contains line_number then LineMark.highlighted
    else LineMark.plain
  .codeLine line_number cfg.linenos content raw mark

/-- The writes of the callout/heading splice (lines 395-414), after the
pending-line flush. -/
def spliceItems (cfg : Config) (f : SigRec) (n : Nat) : List OutItem :=
  match cfg.function_style with
  | .callout => [.fenceCloseBlank, .calloutFuncName f.name, .calloutLineNum n, .fenceOpen]
  | .heading => [.fenceCloseBlank, .headingText f.name, .fenceOpen]
  | .emphasis => []

/-- The middle-parts loop of the newline handling (lines 441-453): one line
per part, incrementing the line number each time. -/
def emitMid (cfg : Config) (tokens : List Token) (idx : Nat) (ttype : TType) :
    List Str → Nat → List OutItem × Nat
  | [], n => ([], n)
  | p :: ps, n =>
    let item := _write_line cfg (if p ≠ [] then [mkPart cfg ttype p] else []) n
      (some (tokens, idx))
    let rest := emitMid cfg tokens idx ttype ps (n + 1)
    (item :: rest.1, rest.2)

/-- The token loop of `format_unencoded` (lines 383-477), fuelled.  Returns
the emitted items, the final `current_line`, and the final `line_number`.
`tokens.length + 1` fuel is enough: a splice jumps to a record's strictly
larger `end_idx` and every other step advances one index. -/
def renderLoop (cfg : Config) (tokens : List Token) (sigs : List SigRec) :
    Nat → Nat → List LinePart → Nat → List OutItem × List LinePart × Nat
  | 0, _, cur, n => ([], cur, n)
  | fuel + 1, idx, cur, n =>
    if idx < tokens.length then
      let t := tokAt tokens idx
      let fOpt : Option SigRec :=
        match sigs.find? (fun f => f.start_idx = idx) with
        | some f => if cfg.function_style = FStyle.emphasis then none else some f
        | none => none
      match fOpt with
      | some f =>
        let flush := if cur ≠ [] then [_write_line cfg cur n none] else []
        let rest := renderLoop cfg tokens sigs fuel f.end_idx [] n
        (flush ++ spliceItems cfg f n ++ rest.1, rest.2)
      | none =>
        if t.2.contains '\n' then
          match splitNl t.2 with
          | [] => ([], cur, n)
          | p0 :: restParts =>
            let cur1 := if p0 ≠ [] then cur ++ [mkPart cfg t.1 p0] else cur
            let item0 := _write_line cfg cur1 n (some (tokens, idx))
            let mid := restParts.dropLast
            let midOut := emitMid cfg tokens idx t.1 mid (n + 1)
            let lastPiece := restParts.getLast?.getD []
            let cur2 := if lastPiece ≠ [] then [mkPart cfg t.1 lastPiece] else []
            let rest := renderLoop cfg tokens sigs fuel (idx + 1) cur2 midOut.2
            (item0 :: midOut.1 ++ rest.1, rest.2)
        else
          let cur2 := if t.2 ≠ [] then cur ++ [mkPart cfg t.1 t.2] else cur
          renderLoop cfg tokens sigs fuel (idx + 1) cur2 n
    else ([], cur, n)

/-- Insertion sort (models Python `sorted`). -/
def insertNat (x : Nat) : List Nat → List Nat
  | [] => [x]
  | y :: t => if x ≤ y then x :: y :: t else y :: insertNat x t

/-- Models Python `sorted` on the `hl_lines` set. -/
def sortNats : List Nat → List Nat
  | [] => []
  | x :: t => insertNat x (sortNats t)

/-- `MarkdownFormatter.format_unencoded` (markdown.py lines 324-498), as the
structured sequence of its writes. -/
def format_unencoded (cfg : Config) (tokens : List Token) : List OutItem :=
  let headerItems : List OutItem :=
    if cfg.full then [.titleLine cfg.title, .genNote] else []
  let sigs := function_signatures cfg.highlight_functions tokens
  let summary : List OutItem :=
    if sigs ≠ [] ∧ cfg.function_style = .callout then
      .funcsFoundHeader ::
        sigs.map (fun f => .funcsFoundEntry f.name f.parameters f.line_num)
        ++ [.blankLine]
    else []
  let body := renderLoop cfg tokens sigs (tokens.length + 1) 0 [] cfg.linenostart
  let trailing : List OutItem :=
    if body.2.1 ≠ [] then
      [_write_line cfg body.2.1 body.2.2 (some (tokens, tokens.length - 1))]
    else []
  let hlTrailer : List OutItem :=
    if cfg.hl_lines ≠ [] then [.hlComment (sortNats cfg.hl_lines)] else []
  let fnTrailer : List OutItem :=
    if sigs ≠ [] ∧ cfg.function_style = .emphasis then
      .funcsTrailerHeader ::
        sigs.map (fun f => .funcsTrailerEntry f.name f.parameters f.line_num)
        ++ [.blankLine]
    else []
  headerItems ++ summary ++ [.fenceOpen] ++ body.1 ++ trailing
    ++ [.fenceCloseFinal] ++ hlTrailer ++ fnTrailer

/-- Decimal digits of a number. -/
def natRepr (n : Nat) : Str := (Nat.repr n).toList

/-- The fence marker: `fence_char` repeated `fence_count` times (line 372). -/
def fenceStr (cfg : Config) : Str := List.replicate cfg.fence_count cfg.fence_char

/-- Python `f'{n:4d}'`: right-aligned in a width of four. -/
def padLeft4 (s : Str) : Str := List.replicate (4 - s.length) ' ' ++ s

/-- `f"({params})" if params else "()"` (lines 367, 496). -/
def paramsDisplay (params : Str) : Str := "(".toList ++ params ++ ")".toList

/-- The exact text of one structured write. -/
def outItemText (cfg : Config) : OutItem → Str
  | .titleLine title => "# ".toList ++ title ++ "\n\n".toList
  | .genNote => "Generated by Pygments Markdown Formatter\n\n".toList
  | .funcsFoundHeader => "## 📚 Functions Found\n\n".toList
  | .funcsFoundEntry nm ps ln =>
    "- **".toList ++ nm ++ "**".toList ++ paramsDisplay ps
      ++ " (line ".toList ++ natRepr ln ++ ")\n".toList
  | .blankLine => "\n".toList
  | .fenceOpen => fenceStr cfg ++ cfg.lang ++ "\n".toList
  | .fenceCloseBlank => fenceStr cfg ++ "\n\n".toList
  | .fenceCloseFinal => fenceStr cfg ++ "\n".toList
  | .calloutFuncName nm => "> **📋 Function:** `".toList ++ nm ++ "`\n".toList
  | .calloutLineNum n => "> Line ".toList ++ natRepr n ++ "\n\n".toList
  | .headingText nm => "### 🔧 ".toList ++ nm ++ "\n\n".toList
  | .codeLine n showN content _ mark =>
    (if showN then padLeft4 (natRepr n) ++ " | ".toList else [])
      ++ content
      ++ (match mark with
          | .funcMarker f => "  # 🔧 FUNCTION: ".toList ++ f
          | .highlighted => "  # <<< HIGHLIGHTED".toList
          | .plain => [])
      ++ "\n".toList
  | .hlComment ls =>
    "\n<!-- Highlighted lines: ".toList
      ++ List.intercalate ", ".toList (ls.map natRepr) ++ " -->\n".toList
  | .funcsTrailerHeader => "\n## 🔧 Functions\n\n".toList
  | .funcsTrailerEntry nm ps ln =>
    "**".toList ++ nm ++ "**".toList ++ paramsDisplay ps
      ++ " - Line ".toList ++ natRepr ln ++ "\n".toList

/-- The rendered output text: concatenation of all writes. -/
def renderText (cfg : Config) (tokens : List Token) : Str :=
  ((format_unencoded cfg tokens).map (outItemText cfg)).flatten

/-- The raw (markup-free) text contributed by one write: the raw token
text of a code line followed by its line break, nothing for other writes. -/
def lineRawSel : OutItem → Str
  | .codeLine _ _ _ raw _ => raw ++ "\n".toList
  | _ => []

/-- Spec-side reading of the output "with all inline styling and annotation
markup stripped": the raw token text of each emitted line, one line break
per emitted line. -/
def strippedOf (items : List OutItem) : Str :=
  (items.map lineRawSel).flatten

/-- The line number carried by a write, when it is a code line. -/
def lineNumSel : OutItem → Option Nat
  | .codeLine n _ _ _ _ => some n
  | _ => none

/-- The line numbers assigned to the emitted lines, in emission order. -/
def assignedNumbers (items : List OutItem) : List Nat :=
  items.filterMap lineNumSel

/-- Concatenated token text of a stream. -/
def concatTexts (tokens : List Token) : Str := (tokens.map Prod.snd).flatten

/-
Example streams and configurations used by the theorems below.
-/

/-- A stream that ends inside a signature: `def f(`. -/
def exC8 : List Token :=
  [(.Keyword, "def".toList), (.Whitespace, " ".toList), (.Name, "f".toList),
   (.Punctuation, "(".toList)]

/-- `def f()` followed by a newline-containing (but not pure-newline) token
and then a `;` token. -/
def exC5 : List Token :=
  [(.Keyword, "def".toList), (.Whitespace, " ".toList), (.Name, "f".toList),
   (.Punctuation, "(".toList), (.Punctuation, ")".toList),
   (.Text, "a\nb".toList), (.Punctuation, ";".toList)]

/-- `x def f():\ny\n` with the signature starting mid-line at token 1. -/
def exCallout : List Token :=
  [(.Name, "x".toList), (.Whitespace, " ".toList), (.Keyword, "def".toList),
   (.Whitespace, " ".toList), (.Name, "f".toList), (.Punctuation, "(".toList),
   (.Punctuation, ")".toList), (.Punctuation, ":".toList),
   (.Whitespace, "\n".toList), (.Name, "y".toList), (.Whitespace, "\n".toList)]

/-- Default options with `function_style = 'callout'`. -/
def cfgCallout : Config := { defaultConfig with function_style := .callout }

/-- `def f():\n` as a token stream. -/
def exDefLine : List Token :=
  [(.Keyword, "def".toList), (.Whitespace, " ".toList), (.Name, "f".toList),
   (.Punctuation, "(".toList), (.Punctuation, ")".toList),
   (.Punctuation, ":".toList), (.Whitespace, "\n".toList)]

/-- Default options plus `hl_lines = {1}`. -/
def cfgHl1 : Config := { defaultConfig with hl_lines := [1] }

/-- `x\n` as a token stream. -/
def exXNl : List Token := [(.Name, "x".toList), (.Whitespace, "\n".toList)]

/-- C10: rendering the empty token stream under the default configuration
emits exactly two lines, the opening fence followed immediately by the
closing fence, with no summary, line numbers or annotations. -/
theorem c10_empty_stream_render :
    format_unencoded defaultConfig [] = [.fenceOpen, .fenceCloseFinal]
    ∧ renderText defaultConfig [] = "```\n```\n".toList := by
  constructor <;> decide

/-- C1, counterexample: with the callout style, the rendered output of
`exCallout` stripped of styling/annotation markup is not the concatenated
token text (the text of the tokens inside the detected signature range
`[1, 7)` is dropped). -/
theorem c1_fidelity_counterexample :
    strippedOf (format_unencoded cfgCallout exCallout) ≠ concatTexts exCallout := by
  decide

/-- C3, counterexample: with the callout style, rendering `exCallout`
assigns line numbers `[1, 1, 2]` — the number 1 repeats, because the
partial line flushed at the signature splice does not advance the line
number. -/
theorem c3_line_numbers_counterexample :
    assignedNumbers (format_unencoded cfgCallout exCallout) = [1, 1, 2] := by
  decide

/-- C5, counterexample: a successful scan of `exC5` returns `end_idx = 6`
even though the earlier token at index 5 contains a newline — a
newline-containing token is not a terminator unless its text is exactly
`"\n"`. -/
theorem c5_terminator_counterexample :
    _is_function_definition true exC5 0 =
      ⟨true, some "f".toList, some [], 6⟩
    ∧ (tokAt exC5 5).2.contains '\n' = true ∧ (5 : Nat) < 6 := by
  refine ⟨by decide, by decide, by decide⟩

/-- C7, counterexample: rendering `def f():\n` with `hl_lines = {1}` under
the default (emphasis) configuration emits the line numbered 1 with the
function marker, not the highlight annotation, although `1 ∈ hl_lines`. -/
theorem c7_highlight_counterexample :
    (format_unencoded cfgHl1 exDefLine).filterMap
      (fun it => match it with
        | .codeLine n _ _ _ m => some (n, m)
        | _ => none) = [(1, .funcMarker "f".toList)]
    ∧ cfgHl1.hl_lines.contains 1 = true := by
  refine ⟨by decide, by decide⟩

/-- C8, counterexample: scanning `exC8` (a stream exhausted just after the
opening parenthesis, mid-signature) confirms a function instead of
returning not-found. -/
theorem c8_scanner_failure_counterexample :
    (_is_function_definition true exC8 0).is_function = true
    ∧ (_is_function_definition true exC8 0).end_idx = 4
    ∧ exC8.length = 4 := by
  refine ⟨by decide, by decide, by decide⟩

/-
Scanner lemmas: index monotonicity of each stage.
-/

/-- `skipWsAux` never moves backwards. -/
theorem skipWsAux_ge (tokens : List Token) :
    ∀ gas i, i ≤ skipWsAux tokens gas i := by
  intro gas
  induction gas with
  | zero => intro i; simp [skipWsAux]
  | succ g ih =>
    intro i
    simp only [skipWsAux]
    split
    · split
      · exact Nat.le_trans (Nat.le_succ i) (ih (i + 1))
      · exact Nat.le_refl i
    · exact Nat.le_refl i

/-- `skipWs` never moves backwards. -/
theorem skipWs_ge (tokens : List Token) (i : Nat) : i ≤ skipWs tokens i :=
  skipWsAux_ge tokens _ i

/-- The head check returns an index at or after its input. -/
theorem headCheck_snd_ge (tokens : List Token) (i : Nat) :
    i ≤ (headCheck tokens i).2 := by
  unfold headCheck
  dsimp only
  repeat' split
  all_goals simp

/-- A successful head+name phase moves strictly forward. -/
theorem scanHead_lt (tokens : List Token) (s : Nat) (nm : Str) (i3 : Nat)
    (h : scanHead tokens s = some (nm, i3)) : s < i3 := by
  unfold scanHead at h
  dsimp only at h
  split at h
  · split at h
    · split at h
      · split at h
        · have h1 : s ≤ skipWs tokens s := skipWs_ge tokens s
          have h2 : skipWs tokens s ≤ (headCheck tokens (skipWs tokens s)).2 :=
            headCheck_snd_ge tokens (skipWs tokens s)
          have h3 : (headCheck tokens (skipWs tokens s)).2 ≤
              skipWs tokens (headCheck tokens (skipWs tokens s)).2 :=
            skipWs_ge tokens _
          have h4 : i3 = skipWs tokens (headCheck tokens (skipWs tokens s)).2 + 1 := by
            cases h; rfl
          omega
        · exact absurd h (by simp)
      · exact absurd h (by simp)
    · exact absurd h (by simp)
  · exact absurd h (by simp)

/-- A found parenthesis index is at or after the search start. -/
theorem seekParenAux_ge (tokens : List Token) :
    ∀ gas i p, seekParenAux tokens gas i = some p → i ≤ p := by
  intro gas
  induction gas with
  | zero => intro i p h; simp [seekParenAux] at h
  | succ g ih =>
    intro i p h
    simp only [seekParenAux] at h
    split at h
    · split at h
      · cases h; exact Nat.le_refl _
      · split at h
        · exact absurd h (by simp)
        · exact Nat.le_trans (Nat.le_succ i) (ih (i + 1) p h)
    · exact absurd h (by simp)

/-- A found parenthesis index is in range. -/
theorem seekParenAux_lt_length (tokens : List Token) :
    ∀ gas i p, seekParenAux tokens gas i = some p → p < tokens.length := by
  intro gas
  induction gas with
  | zero => intro i p h; simp [seekParenAux] at h
  | succ g ih =>
    intro i p h
    simp only [seekParenAux] at h
    split at h
    · split at h
      · cases h; assumption
      · split at h
        · exact absurd h (by simp)
        · exact ih (i + 1) p h
    · exact absurd h (by simp)

/-- The parameter scan never moves backwards. -/
theorem paramScanAux_snd_ge (tokens : List Token) :
    ∀ gas i depth acc, i ≤ (paramScanAux tokens gas i depth acc).2 := by
  intro gas
  induction gas with
  | zero => intro i depth acc; simp [paramScanAux]
  | succ g ih =>
    intro i depth acc
    simp only [paramScanAux]
    split
    · exact Nat.le_refl i
    · split
      · exact Nat.le_trans (Nat.le_succ i) (ih (i + 1) _ _)
      · exact Nat.le_refl i

/-- The parameter scan never leaves the stream. -/
theorem paramScanAux_snd_le_length (tokens : List Token) :
    ∀ gas i depth acc, i ≤ tokens.length →
      (paramScanAux tokens gas i depth acc).2 ≤ tokens.length := by
  intro gas
  induction gas with
  | zero => intro i depth acc hi; simpa [paramScanAux] using hi
  | succ g ih =>
    intro i depth acc hi
    simp only [paramScanAux]
    split
    · exact hi
    · split
      · exact ih (i + 1) _ _ (by omega)
      · exact hi

/-- The terminator scan never moves backwards. -/
theorem findTerminatorAux_ge (tokens : List Token) :
    ∀ gas i, i ≤ findTerminatorAux tokens gas i := by
  intro gas
  induction gas with
  | zero => intro i; simp [findTerminatorAux]
  | succ g ih =>
    intro i
    simp only [findTerminatorAux]
    split
    · split
      · exact Nat.le_refl i
      · exact Nat.le_trans (Nat.le_succ i) (ih (i + 1))
    · exact Nat.le_refl i

/-- A token text that stops the terminator scan. -/
def isTermTok (v : Str) : Prop :=
  v = ":".toList ∨ v = "\x7b".toList ∨ v = ";".toList ∨ v = "\n".toList

instance (v : Str) : Decidable (isTermTok v) := by
  unfold isTermTok; infer_instance

/-- Full characterisation of the terminator scan on exact gas. -/
theorem findTerminatorAux_spec (tokens : List Token) :
    ∀ gas i, i ≤ tokens.length → tokens.length ≤ i + gas →
      (findTerminatorAux tokens gas i ≤ tokens.length
        ∧ (∀ k, i ≤ k → k < findTerminatorAux tokens gas i →
            ¬ isTermTok (tokAt tokens k).2)
        ∧ (findTerminatorAux tokens gas i < tokens.length →
            isTermTok (tokAt tokens (findTerminatorAux tokens gas i)).2)) := by
  intro gas
  induction gas with
  | zero =>
    intro i hi hg
    have : findTerminatorAux tokens 0 i = i := rfl
    rw [this]
    refine ⟨hi, ?_, ?_⟩
    · intro k hk1 hk2; omega
    · intro h; omega
  | succ g ih =>
    intro i hi hg
    simp only [findTerminatorAux]
    split
    · split
      · rename_i hlt hterm
        refine ⟨by omega, ?_, ?_⟩
        · intro k hk1 hk2; omega
        · intro _
          exact hterm
      · rename_i hlt hterm
        have ihh := ih (i + 1) (by omega) (by omega)
        refine ⟨ihh.1, ?_, ihh.2.2⟩
        · intro k hk1 hk2
          rcases Nat.eq_or_lt_of_le hk1 with heq | hlt2
          · subst heq
            simpa [isTermTok] using hterm
          · exact ihh.2.1 k (by omega) hk2
    · refine ⟨hi, ?_, ?_⟩
      · intro k hk1 hk2
        have := findTerminatorAux_ge tokens g (i + 1)
        omega
      · intro h; omega

/-- Unfolding a scan whose stages all succeed. -/
theorem scan_unfold_success (tokens : List Token) (s : Nat) (nm : Str)
    (i3 pIdx : Nat) (hsh : scanHead tokens s = some (nm, i3))
    (hsp : seekParen tokens i3 = some pIdx) :
    _is_function_definition true tokens s =
      ⟨true, some nm,
       some (normalizeParams (paramScan tokens (pIdx + 1) 1 []).1),
       findTerminator tokens (paramScan tokens (pIdx + 1) 1 []).2⟩ := by
  unfold _is_function_definition
  simp [hsh, hsp]

/-- A successful scan implies all its stages succeeded. -/
theorem scan_stages_of_success (hf : Bool) (tokens : List Token) (s : Nat)
    (h : (_is_function_definition hf tokens s).is_function = true) :
    hf = true ∧ ∃ nm i3 pIdx,
      scanHead tokens s = some (nm, i3) ∧ seekParen tokens i3 = some pIdx := by
  unfold _is_function_definition at h
  split at h
  · simp at h
  · rename_i hhf
    refine ⟨by simpa using hhf, ?_⟩
    rcases hsh : scanHead tokens s with _ | ⟨nm, i3⟩
    · rw [hsh] at h; simp at h
    · rw [hsh] at h
      dsimp only at h
      rcases hsp : seekParen tokens i3 with _ | pIdx
      · rw [hsp] at h; simp at h
      · exact ⟨nm, i3, pIdx, rfl, hsp⟩

/-- Decomposition of a successful scan into its stages. -/
theorem scan_success_decomp (hf : Bool) (tokens : List Token) (s : Nat)
    (h : (_is_function_definition hf tokens s).is_function = true) :
    ∃ nm i3 pIdx,
      scanHead tokens s = some (nm, i3)
      ∧ seekParen tokens i3 = some pIdx
      ∧ _is_function_definition hf tokens s =
          ⟨true, some nm,
           some (normalizeParams (paramScan tokens (pIdx + 1) 1 []).1),
           findTerminator tokens (paramScan tokens (pIdx + 1) 1 []).2⟩ := by
  obtain ⟨hhf, nm, i3, pIdx, hsh, hsp⟩ := scan_stages_of_success hf tokens s h
  subst hhf
  exact ⟨nm, i3, pIdx, hsh, hsp, scan_unfold_success tokens s nm i3 pIdx hsh hsp⟩

/-- A successful scan moves strictly forward: `start_idx < end_idx`. -/
theorem scan_progress (hf : Bool) (tokens : List Token) (s : Nat)
    (h : (_is_function_definition hf tokens s).is_function = true) :
    s < (_is_function_definition hf tokens s).end_idx := by
  obtain ⟨nm, i3, pIdx, hsh, hsp, heq⟩ := scan_success_decomp hf tokens s h
  have h1 : s < i3 := scanHead_lt tokens s nm i3 hsh
  have h2 : i3 ≤ pIdx := seekParenAux_ge tokens _ i3 pIdx hsp
  have h3 : pIdx + 1 ≤ (paramScan tokens (pIdx + 1) 1 []).2 :=
    paramScanAux_snd_ge tokens _ (pIdx + 1) 1 []
  have h4 : (paramScan tokens (pIdx + 1) 1 []).2 ≤
      findTerminator tokens (paramScan tokens (pIdx + 1) 1 []).2 :=
    findTerminatorAux_ge tokens _ _
  rw [heq]
  dsimp only
  omega

/-- The fueled pre-pass is fuel-independent once the fuel exceeds the
remaining stream length (the loop terminates). -/
theorem prePassAux_fuel_stable (tokens : List Token) :
    ∀ fuel i, tokens.length - i < fuel →
      prePassAux tokens fuel i = prePassAux tokens (fuel + 1) i := by
  intro fuel
  induction fuel with
  | zero => intro i h; omega
  | succ g ih =>
    intro i h
    conv_lhs => rw [prePassAux]
    conv_rhs => rw [prePassAux]
    split
    · rename_i hlt
      dsimp only
      split
      · rename_i hfun
        have hprog : i < (_is_function_definition true tokens i).end_idx :=
          scan_progress true tokens i hfun
        rw [ih ((_is_function_definition true tokens i).end_idx) (by omega)]
      · rw [ih (i + 1) (by omega)]
    · rfl

/-- C9: whenever the signature scanner reports success the returned
`end_idx` strictly exceeds the start index, and consequently the fueled
discovery pre-pass is fuel-independent (terminates) on every finite stream. -/
theorem c9_scanner_progress :
    (∀ hf tokens s, (_is_function_definition hf tokens s).is_function = true →
      s < (_is_function_definition hf tokens s).end_idx)
    ∧ (∀ tokens fuel i, tokens.length - i < fuel →
        prePassAux tokens fuel i = prePassAux tokens (fuel + 1) i) := by
  exact ⟨scan_progress, prePassAux_fuel_stable⟩

/-- Witness for C9 on a concrete stream. -/
theorem c9_witness :
    0 < (_is_function_definition true exC8 0).end_idx
    ∧ prePassAux exC8 5 0 = prePassAux exC8 6 0 := by
  exact ⟨c9_scanner_progress.1 true exC8 0 (by decide),
         c9_scanner_progress.2 exC8 5 0 (by decide)⟩

/-- Every scan returns either the literal not-found record or a success. -/
theorem scan_shape (hf : Bool) (tokens : List Token) (s : Nat) :
    _is_function_definition hf tokens s = ⟨false, none, none, s⟩
    ∨ (_is_function_definition hf tokens s).is_function = true := by
  unfold _is_function_definition
  split
  · exact Or.inl rfl
  · rcases hsh : scanHead tokens s with _ | ⟨nm, i3⟩
    · exact Or.inl rfl
    · dsimp only
      rcases hsp : seekParen tokens i3 with _ | pIdx
      · exact Or.inl rfl
      · exact Or.inr rfl

/-- C8 (amended): whenever the scanner does not confirm a declaration it
returns not-found with `end_idx = start_idx` and no name or parameters
(never raising is modelled by totality of the function). -/
theorem c8_scanner_failure_amended :
    ∀ hf tokens s, (_is_function_definition hf tokens s).is_function = false →
      _is_function_definition hf tokens s = ⟨false, none, none, s⟩ := by
  intro hf tokens s h
  rcases scan_shape hf tokens s with he | ht
  · exact he
  · rw [ht] at h; cases h

/-- Witness for C8 (amended) at a concrete failing input. -/
theorem c8_witness :
    _is_function_definition true exCallout 0 = ⟨false, none, none, 0⟩ := by
  exact c8_scanner_failure_amended true exCallout 0 (by decide)

/-- Invariant of the discovery pre-pass: every record starts at or after
the scan position and has a non-empty range, and the records are chained. -/
theorem prePassAux_inv (tokens : List Token) :
    ∀ fuel i,
      (∀ r ∈ prePassAux tokens fuel i, i ≤ r.start_idx ∧ r.start_idx < r.end_idx)
      ∧ List.Chain' (fun a b => a.end_idx ≤ b.start_idx) (prePassAux tokens fuel i) := by
  intro fuel
  induction fuel with
  | zero => intro i; simp [prePassAux]
  | succ g ih =>
    intro i
    rw [prePassAux]
    dsimp only
    split
    · rename_i hlt
      split
      · rename_i hfun
        have hprog : i < (_is_function_definition true tokens i).end_idx :=
          scan_progress true tokens i hfun
        have ihe := ih ((_is_function_definition true tokens i).end_idx)
        constructor
        · intro r hr
          rcases List.mem_cons.mp hr with hhead | htail
          · subst hhead
            exact ⟨Nat.le_refl i, hprog⟩
          · have hm := ihe.1 r htail
            exact ⟨by omega, hm.2⟩
        · refine List.chain'_cons'.mpr ⟨?_, ihe.2⟩
          intro y hy
          have hymem : y ∈ prePassAux tokens g
              ((_is_function_definition true tokens i).end_idx) :=
            List.mem_of_mem_head? hy
          exact (ihe.1 y hymem).1
      · rename_i hfun
        have ihe := ih (i + 1)
        exact ⟨fun r hr => ⟨by have := (ihe.1 r hr).1; omega, (ihe.1 r hr).2⟩, ihe.2⟩
    · simp

/-- C2: the Signature Records produced by one discovery pre-pass are
chained (`prev.end_idx ≤ next.start_idx`, so the half-open ranges are
pairwise disjoint and sorted by ascending `start_idx`), and every record's
range is non-empty, so each scan resumes at or after the previous record's
`end_idx`. -/
theorem c2_sigrecords_disjoint_sorted :
    ∀ hf tokens,
      List.Chain' (fun a b => a.end_idx ≤ b.start_idx)
        (function_signatures hf tokens)
      ∧ ∀ r ∈ function_signatures hf tokens, r.start_idx < r.end_idx := by
  intro hf tokens
  unfold function_signatures
  split
  · exact ⟨(prePassAux_inv tokens _ 0).2,
           fun r hr => ((prePassAux_inv tokens _ 0).1 r hr).2⟩
  · simp

/-- Witness for C2 on a concrete stream with one detected signature. -/
theorem c2_witness :
    (⟨"f".toList, [], 1, 7, 1, " def f()".toList⟩ : SigRec).start_idx
      < (⟨"f".toList, [], 1, 7, 1, " def f()".toList⟩ : SigRec).end_idx :=
  (c2_sigrecords_disjoint_sorted true exCallout).2
    ⟨"f".toList, [], 1, 7, 1, " def f()".toList⟩ (by decide)

/-- `findTerminator` specification: within bounds, monotone, no terminator
before the returned index, and a terminator at it unless the stream ended. -/
theorem findTerminator_spec (tokens : List Token) (i : Nat)
    (hi : i ≤ tokens.length) :
    i ≤ findTerminator tokens i
    ∧ findTerminator tokens i ≤ tokens.length
    ∧ (∀ k, i ≤ k → k < findTerminator tokens i → ¬ isTermTok (tokAt tokens k).2)
    ∧ (findTerminator tokens i < tokens.length →
        isTermTok (tokAt tokens (findTerminator tokens i)).2) := by
  have h := findTerminatorAux_spec tokens (tokens.length - i) i hi (by omega)
  exact ⟨findTerminatorAux_ge tokens _ i, h.1, h.2.1, h.2.2⟩

/-- C5 (amended): a successful scan returns as `end_idx` the index of the
first token at or after the position just past the closing parenthesis
whose text is exactly `":"`, `"{"`, `";"` or `"\n"`, or the stream length
when no such token exists. -/
theorem c5_terminator_amended :
    ∀ hf tokens s r, _is_function_definition hf tokens s = r →
      r.is_function = true →
      ∃ i4, scanPastParen tokens s = some i4
        ∧ r.end_idx = findTerminator tokens i4
        ∧ i4 ≤ r.end_idx
        ∧ r.end_idx ≤ tokens.length
        ∧ (∀ k, i4 ≤ k → k < r.end_idx → ¬ isTermTok (tokAt tokens k).2)
        ∧ (r.end_idx < tokens.length → isTermTok (tokAt tokens r.end_idx).2) := by
  intro hf tokens s r hr hfun
  subst hr
  obtain ⟨nm, i3, pIdx, hsh, hsp, heq⟩ := scan_success_decomp hf tokens s hfun
  have hp : pIdx < tokens.length := seekParenAux_lt_length tokens _ i3 pIdx hsp
  have hle : (paramScan tokens (pIdx + 1) 1 []).2 ≤ tokens.length :=
    paramScanAux_snd_le_length tokens _ (pIdx + 1) 1 [] (by omega)
  have hspec := findTerminator_spec tokens (paramScan tokens (pIdx + 1) 1 []).2 hle
  refine ⟨(paramScan tokens (pIdx + 1) 1 []).2, ?_, ?_, ?_, ?_, ?_, ?_⟩
  · unfold scanPastParen
    simp [hsh, hsp]
  · rw [heq]
  · rw [heq]; exact hspec.1
  · rw [heq]; exact hspec.2.1
  · rw [heq]; exact hspec.2.2.1
  · rw [heq]; exact hspec.2.2.2

/-- Witness for C5 (amended) on the concrete stream `exC5`. -/
theorem c5_witness :
    ∃ i4, scanPastParen exC5 0 = some i4
      ∧ (_is_function_definition true exC5 0).end_idx = findTerminator exC5 i4
      ∧ i4 ≤ (_is_function_definition true exC5 0).end_idx
      ∧ (_is_function_definition true exC5 0).end_idx ≤ exC5.length
      ∧ (∀ k, i4 ≤ k → k < (_is_function_definition true exC5 0).end_idx →
          ¬ isTermTok (tokAt exC5 k).2)
      ∧ ((_is_function_definition true exC5 0).end_idx < exC5.length →
          isTermTok (tokAt exC5 (_is_function_definition true exC5 0).end_idx).2) :=
  c5_terminator_amended true exC5 0 _ rfl (by decide)

/-
Fence accounting (C6).
-/

/-- Is an item an opening fence write? -/
def isOpenItem : OutItem → Bool
  | .fenceOpen => true
  | _ => false

/-- Is an item a closing fence write (splice or final)? -/
def isCloseItem : OutItem → Bool
  | .fenceCloseBlank => true
  | .fenceCloseFinal => true
  | _ => false

/-- Number of opening fence markers among the writes. -/
def fenceOpens (items : List OutItem) : Nat := items.countP isOpenItem

/-- Number of closing fence markers among the writes. -/
def fenceCloses (items : List OutItem) : Nat := items.countP isCloseItem

/-- `_write_line` always produces a `codeLine` item. -/
theorem write_line_is_codeLine (cfg : Config) (lineParts : List LinePart)
    (n : Nat) (tokCtx : Option (List Token × Nat)) :
    ∃ num s c r m, _write_line cfg lineParts n tokCtx = .codeLine num s c r m :=
  ⟨_, _, _, _, _, rfl⟩

/-- A code line is neither an opening nor a closing fence. -/
theorem write_line_not_fence (cfg : Config) (lineParts : List LinePart)
    (n : Nat) (tokCtx : Option (List Token × Nat)) :
    isOpenItem (_write_line cfg lineParts n tokCtx) = false
    ∧ isCloseItem (_write_line cfg lineParts n tokCtx) = false := by
  obtain ⟨num, s, c, r, m, he⟩ := write_line_is_codeLine cfg lineParts n tokCtx
  rw [he]
  exact ⟨rfl, rfl⟩

/-- The middle-parts loop emits no fences. -/
theorem emitMid_fence (cfg : Config) (tokens : List Token) (idx : Nat)
    (ttype : TType) :
    ∀ ps n, fenceOpens (emitMid cfg tokens idx ttype ps n).1 = 0
      ∧ fenceCloses (emitMid cfg tokens idx ttype ps n).1 = 0 := by
  intro ps
  induction ps with
  | nil => intro n; simp [emitMid, fenceOpens, fenceCloses]
  | cons p pt ih =>
    intro n
    have hw := write_line_not_fence cfg
      (if p ≠ [] then [mkPart cfg ttype p] else []) n (some (tokens, idx))
    have iht := ih (n + 1)
    simp only [emitMid, fenceOpens, fenceCloses, List.countP_cons, hw.1, hw.2,
      Bool.false_eq_true, if_false] at iht ⊢
    omega

/-- A splice emits exactly one closing and one opening fence. -/
theorem spliceItems_fence (cfg : Config) (f : SigRec) (n : Nat) :
    fenceOpens (spliceItems cfg f n) = fenceCloses (spliceItems cfg f n) := by
  unfold spliceItems
  cases cfg.function_style <;> rfl

/-- The token loop keeps opened and closed fences balanced, for any fuel. -/
theorem renderLoop_fence_balance (cfg : Config) (tokens : List Token)
    (sigs : List SigRec) :
    ∀ fuel idx cur n,
      fenceOpens (renderLoop cfg tokens sigs fuel idx cur n).1
        = fenceCloses (renderLoop cfg tokens sigs fuel idx cur n).1 := by
  intro fuel
  induction fuel with
  | zero => intro idx cur n; simp [renderLoop, fenceOpens, fenceCloses]
  | succ g ih =>
    intro idx cur n
    rw [renderLoop]
    dsimp only
    split
    · split
      · rename_i f hf
        have hsp := spliceItems_fence cfg f n
        have hrest := ih f.end_idx [] n
        have hw := write_line_not_fence cfg cur n none
        by_cases hcur : cur = []
        · simp only [hcur, ne_eq, not_true_eq_false, if_false, fenceOpens,
            fenceCloses, List.countP_append, List.countP_nil] at hsp hrest ⊢
          omega
        · simp only [hcur, ne_eq, not_false_eq_true, if_true, fenceOpens,
            fenceCloses, List.countP_append, List.countP_cons, List.countP_nil,
            hw.1, hw.2, Bool.false_eq_true, if_false] at hsp hrest ⊢
          omega
      · split
        · split
          · simp [fenceOpens, fenceCloses]
          · rename_i p0 restParts heq
            have hw := write_line_not_fence cfg
              (if p0 ≠ [] then cur ++ [mkPart cfg (tokAt tokens idx).1 p0] else cur)
              n (some (tokens, idx))
            have hm := emitMid_fence cfg tokens idx (tokAt tokens idx).1
              restParts.dropLast (n + 1)
            have hrest := ih (idx + 1)
              (if restParts.getLast?.getD [] ≠ []
                then [mkPart cfg (tokAt tokens idx).1 (restParts.getLast?.getD [])]
                else [])
              (emitMid cfg tokens idx (tokAt tokens idx).1 restParts.dropLast (n + 1)).2
            simp only [fenceOpens, fenceCloses, List.countP_append,
              List.countP_cons, List.countP_nil, hw.1, hw.2, Bool.false_eq_true,
              if_false] at hm hrest ⊢
            omega
        · exact ih (idx + 1) _ n
    · simp [fenceOpens, fenceCloses]

/-- A list of writes none of which is a fence has zero fence counts. -/
theorem fence_count_zero_of_all (l : List OutItem)
    (h : ∀ x ∈ l, isOpenItem x = false ∧ isCloseItem x = false) :
    l.countP isOpenItem = 0 ∧ l.countP isCloseItem = 0 := by
  constructor <;>
    (rw [List.countP_eq_zero]; intro x hx;  simp [(h x hx).1, (h x hx).2])

/-- C6: with `highlight_functions` on and the callout or heading style, the
number of opening fence markers written equals the number of closing fence
markers. -/
theorem c6_fence_integrity :
    ∀ tokens cfg,
      (cfg.function_style = FStyle.callout ∨ cfg.function_style = FStyle.heading) →
      cfg.highlight_functions = true →
      fenceOpens (format_unencoded cfg tokens)
        = fenceCloses (format_unencoded cfg tokens) := by
  intro tokens cfg _ _
  unfold format_unencoded
  dsimp only
  have hloop := renderLoop_fence_balance cfg tokens
    (function_signatures cfg.highlight_functions tokens)
    (tokens.length + 1) 0 [] cfg.linenostart
  have hheader := fence_count_zero_of_all
    (if cfg.full then [.titleLine cfg.title, .genNote] else []) (by
      intro x hx
      split at hx
      · rcases List.mem_cons.mp hx with rfl | hx2
        · exact ⟨rfl, rfl⟩
        · rcases List.mem_singleton.mp hx2 with rfl
          exact ⟨rfl, rfl⟩
      · simp at hx)
  have hsummary := fence_count_zero_of_all
    (if function_signatures cfg.highlight_functions tokens ≠ []
        ∧ cfg.function_style = FStyle.callout then
      .funcsFoundHeader ::
        (function_signatures cfg.highlight_functions tokens).map
          (fun f => .funcsFoundEntry f.name f.parameters f.line_num)
        ++ [.blankLine]
    else []) (by
      intro x hx
      split at hx
      · rcases List.mem_cons.mp hx with rfl | hx2
        · exact ⟨rfl, rfl⟩
        · rcases List.mem_append.mp hx2 with hx3 | hx4
          · obtain ⟨f, _, rfl⟩ := List.mem_map.mp hx3
            exact ⟨rfl, rfl⟩
          · rcases List.mem_singleton.mp hx4 with rfl
            exact ⟨rfl, rfl⟩
      · simp at hx)
  have htrailing := fence_count_zero_of_all
    (if (renderLoop cfg tokens (function_signatures cfg.highlight_functions tokens)
          (tokens.length + 1) 0 [] cfg.linenostart).2.1 ≠ [] then
      [_write_line cfg
        (renderLoop cfg tokens (function_signatures cfg.highlight_functions tokens)
          (tokens.length + 1) 0 [] cfg.linenostart).2.1
        (renderLoop cfg tokens (function_signatures cfg.highlight_functions tokens)
          (tokens.length + 1) 0 [] cfg.linenostart).2.2
        (some (tokens, tokens.length - 1))]
    else []) (by
      intro x hx
      split at hx
      · rcases List.mem_singleton.mp hx with rfl
        exact write_line_not_fence cfg _ _ _
      · simp at hx)
  have hhl := fence_count_zero_of_all
    (if cfg.hl_lines ≠ [] then [.hlComment (sortNats cfg.hl_lines)] else []) (by
      intro x hx
      split at hx
      · rcases List.mem_singleton.mp hx with rfl
        exact ⟨rfl, rfl⟩
      · simp at hx)
  have hfn := fence_count_zero_of_all
    (if function_signatures cfg.highlight_functions tokens ≠ []
        ∧ cfg.function_style = FStyle.emphasis then
      .funcsTrailerHeader ::
        (function_signatures cfg.highlight_functions tokens).map
          (fun f => .funcsTrailerEntry f.name f.parameters f.line_num)
        ++ [.blankLine]
    else []) (by
      intro x hx
      split at hx
      · rcases List.mem_cons.mp hx with rfl | hx2
        · exact ⟨rfl, rfl⟩
        · rcases List.mem_append.mp hx2 with hx3 | hx4
          · obtain ⟨f, _, rfl⟩ := List.mem_map.mp hx3
            exact ⟨rfl, rfl⟩
          · rcases List.mem_singleton.mp hx4 with rfl
            exact ⟨rfl, rfl⟩
      · simp at hx)
  simp only [fenceOpens, fenceCloses, List.countP_append, List.countP_cons, List.countP_nil, isOpenItem, isCloseItem] at hloop hheader hsummary htrailing hhl hfn ⊢
  omega

/-- Witness for C6 at a concrete stream and configuration. -/
theorem c6_witness :
    fenceOpens (format_unencoded cfgCallout exCallout)
      = fenceCloses (format_unencoded cfgCallout exCallout) :=
  c6_fence_integrity exCallout cfgCallout (Or.inl rfl) rfl

/-
Line-number accounting (C3).
-/

/-- `NumsOk n l e`: the number list `l` is a valid emission trace starting
from counter value `n` and ending with counter value `e`: each emitted line
carries the current counter, which afterwards either stays (a flush or the
trailing partial line) or increments by one (a completed line). -/
inductive NumsOk : Nat → List Nat → Nat → Prop
  | nil (n : Nat) : NumsOk n [] n
  | stay (n : Nat) : NumsOk n [n] n
  | step (n : Nat) : NumsOk n [n] (n + 1)
  | app {n m e : Nat} {l1 l2 : List Nat} :
      NumsOk n l1 m → NumsOk m l2 e → NumsOk n (l1 ++ l2) e

/-- The end counter of a trace is its last element or its successor. -/
theorem numsOk_last {n e : Nat} {l : List Nat} (h : NumsOk n l e) :
    (l = [] ∧ e = n) ∨ (∃ t, l.getLast? = some t ∧ (e = t ∨ e = t + 1)) := by
  induction h with
  | nil n => exact Or.inl ⟨rfl, rfl⟩
  | stay n => exact Or.inr ⟨n, rfl, Or.inl rfl⟩
  | step n => exact Or.inr ⟨n, rfl, Or.inr rfl⟩
  | app h1 h2 ih1 ih2 =>
    rename_i n1 m1 e1 l1 l2
    rcases ih2 with ⟨hl2, he⟩ | ⟨t, hlast, hrel⟩
    · subst hl2
      subst he
      simpa using ih1
    · right
      have hne : l2 ≠ [] := by
        intro hc
        rw [hc] at hlast
        simp at hlast
      exact ⟨t, by rw [List.getLast?_append_of_ne_nil l1 hne]; exact hlast, hrel⟩

/-- A valid trace is chained (each number repeats or steps by one) and
starts at its start counter. -/
theorem numsOk_chain {n e : Nat} {l : List Nat} (h : NumsOk n l e) :
    List.Chain' (fun a b => b = a ∨ b = a + 1) l
    ∧ (∀ h0, l.head? = some h0 → h0 = n) := by
  induction h with
  | nil n =>
    refine ⟨List.chain'_nil, ?_⟩
    intro h0 hh
    simp at hh
  | stay n =>
    refine ⟨List.chain'_singleton n, ?_⟩
    intro h0 hh
    simp at hh
    omega
  | step n =>
    refine ⟨List.chain'_singleton n, ?_⟩
    intro h0 hh
    simp at hh
    omega
  | app h1 h2 ih1 ih2 =>
    rename_i n1 m1 e1 l1 l2
    constructor
    · refine List.chain'_append.mpr ⟨ih1.1, ih2.1, ?_⟩
      intro x hx y hy
      have hyv : y = m1 := ih2.2 y hy
      rcases numsOk_last h1 with ⟨hl1, _⟩ | ⟨t, hlast, hrel⟩
      · rw [hl1] at hx
        simp at hx
      · rw [hlast] at hx
        have hxt : x = t := by
          simp at hx
          omega
        omega
    · intro h0 hh
      cases hl1e : l1 with
      | nil =>
        rw [hl1e] at hh
        simp at hh
        rcases numsOk_last h1 with ⟨_, hm⟩ | ⟨t, hlast, _⟩
        · have := ih2.2 h0 hh
          omega
        · rw [hl1e] at hlast
          simp at hlast
      | cons a l1t =>
        rw [hl1e] at hh
        simp at hh
        have ha : a = n1 := ih1.2 a (by rw [hl1e]; rfl)
        omega

/-- `_write_line` carries exactly the line number it was given. -/
theorem lineNumSel_write_line (cfg : Config) (lineParts : List LinePart)
    (n : Nat) (tokCtx : Option (List Token × Nat)) :
    lineNumSel (_write_line cfg lineParts n tokCtx) = some n := rfl

/-- Splice writes contain no code line. -/
theorem filterMap_lineNumSel_spliceItems (cfg : Config) (f : SigRec) (n : Nat) :
    List.filterMap lineNumSel (spliceItems cfg f n) = [] := by
  unfold spliceItems
  cases cfg.function_style <;> rfl

/-- The middle-parts loop emits lines numbered consecutively from `n`. -/
theorem emitMid_numsOk (cfg : Config) (tokens : List Token) (idx : Nat)
    (ttype : TType) :
    ∀ ps n, NumsOk n (assignedNumbers (emitMid cfg tokens idx ttype ps n).1)
      (emitMid cfg tokens idx ttype ps n).2 := by
  intro ps
  induction ps with
  | nil => intro n; exact NumsOk.nil n
  | cons p pt ih =>
    intro n
    have hcons : assignedNumbers (emitMid cfg tokens idx ttype (p :: pt) n).1
        = [n] ++ assignedNumbers (emitMid cfg tokens idx ttype pt (n + 1)).1 := by
      simp only [emitMid, assignedNumbers, List.filterMap_cons,
        lineNumSel_write_line, List.singleton_append]
    rw [hcons]
    have h2 : (emitMid cfg tokens idx ttype (p :: pt) n).2
        = (emitMid cfg tokens idx ttype pt (n + 1)).2 := rfl
    rw [h2]
    exact NumsOk.app (NumsOk.step n) (ih (n + 1))

/-- The token loop's emitted line numbers form a valid trace from the
entry counter to the exit counter, for any fuel. -/
theorem renderLoop_numsOk (cfg : Config) (tokens : List Token)
    (sigs : List SigRec) :
    ∀ fuel idx cur n,
      NumsOk n (assignedNumbers (renderLoop cfg tokens sigs fuel idx cur n).1)
        (renderLoop cfg tokens sigs fuel idx cur n).2.2 := by
  intro fuel
  induction fuel with
  | zero => intro idx cur n; exact NumsOk.nil n
  | succ g ih =>
    intro idx cur n
    rw [renderLoop]
    dsimp only
    split
    · split
      · rename_i f hf
        have hrest := ih f.end_idx [] n
        have happ : assignedNumbers
            ((if cur ≠ [] then [_write_line cfg cur n none] else [])
              ++ spliceItems cfg f n
              ++ (renderLoop cfg tokens sigs g f.end_idx [] n).1)
            = assignedNumbers (if cur ≠ [] then [_write_line cfg cur n none] else [])
              ++ assignedNumbers (renderLoop cfg tokens sigs g f.end_idx [] n).1 := by
          simp only [assignedNumbers, List.filterMap_append,
            filterMap_lineNumSel_spliceItems, List.append_nil]
        rw [happ]
        by_cases hcur : cur = []
        · simp only [hcur, ne_eq, not_true_eq_false, if_false]
          exact NumsOk.app (NumsOk.nil n) hrest
        · simp only [hcur, ne_eq, not_false_eq_true, if_true]
          have hone : assignedNumbers [_write_line cfg cur n none] = [n] := rfl
          rw [hone]
          exact NumsOk.app (NumsOk.stay n) hrest
      · split
        · split
          · exact NumsOk.nil n
          · rename_i p0 restParts heq
            have hmid := emitMid_numsOk cfg tokens idx (tokAt tokens idx).1
              restParts.dropLast (n + 1)
            have hrest := ih (idx + 1)
              (if restParts.getLast?.getD [] ≠ []
                then [mkPart cfg (tokAt tokens idx).1 (restParts.getLast?.getD [])]
                else [])
              (emitMid cfg tokens idx (tokAt tokens idx).1 restParts.dropLast (n + 1)).2
            have hcons : assignedNumbers
                (_write_line cfg
                  (if p0 ≠ [] then cur ++ [mkPart cfg (tokAt tokens idx).1 p0] else cur)
                  n (some (tokens, idx))
                  :: (emitMid cfg tokens idx (tokAt tokens idx).1 restParts.dropLast (n + 1)).1
                  ++ (renderLoop cfg tokens sigs g (idx + 1)
                      (if restParts.getLast?.getD [] ≠ []
                        then [mkPart cfg (tokAt tokens idx).1 (restParts.getLast?.getD [])]
                        else [])
                      (emitMid cfg tokens idx (tokAt tokens idx).1 restParts.dropLast (n + 1)).2).1)
                = [n] ++ (assignedNumbers (emitMid cfg tokens idx (tokAt tokens idx).1 restParts.dropLast (n + 1)).1
                  ++ assignedNumbers (renderLoop cfg tokens sigs g (idx + 1)
                      (if restParts.getLast?.getD [] ≠ []
                        then [mkPart cfg (tokAt tokens idx).1 (restParts.getLast?.getD [])]
                        else [])
                      (emitMid cfg tokens idx (tokAt tokens idx).1 restParts.dropLast (n + 1)).2).1) := by
              simp only [assignedNumbers, List.filterMap_cons, List.filterMap_append,
                lineNumSel_write_line, List.singleton_append, List.cons_append,
                List.nil_append]
            rw [hcons]
            exact NumsOk.app (NumsOk.step n) (NumsOk.app hmid hrest)
        · exact ih (idx + 1) _ n
    · exact NumsOk.nil n

/-- C3 (amended): the line numbers assigned to successive emitted lines
start at `linenostart` and each line's number repeats the previous one
(only at a partial-line flush) or exceeds it by exactly one; numbers are
never skipped. -/
theorem c3_line_numbers_amended :
    ∀ tokens cfg,
      List.Chain' (fun a b => b = a ∨ b = a + 1)
        (assignedNumbers (format_unencoded cfg tokens))
      ∧ ∀ h0, (assignedNumbers (format_unencoded cfg tokens)).head? = some h0 →
          h0 = cfg.linenostart := by
  intro tokens cfg
  suffices h : ∃ e, NumsOk cfg.linenostart
      (assignedNumbers (format_unencoded cfg tokens)) e by
    obtain ⟨e, he⟩ := h
    exact numsOk_chain he
  unfold format_unencoded
  dsimp only
  have hmap1 : ∀ (l : List SigRec), List.filterMap lineNumSel
      (l.map (fun f => OutItem.funcsFoundEntry f.name f.parameters f.line_num))
      = [] := by
    intro l
    induction l with
    | nil => rfl
    | cons a t iht => simp [List.filterMap_cons, lineNumSel, iht]
  have hmap2 : ∀ (l : List SigRec), List.filterMap lineNumSel
      (l.map (fun f => OutItem.funcsTrailerEntry f.name f.parameters f.line_num))
      = [] := by
    intro l
    induction l with
    | nil => rfl
    | cons a t iht => simp [List.filterMap_cons, lineNumSel, iht]
  have hA : List.filterMap lineNumSel
      (if cfg.full then [OutItem.titleLine cfg.title, OutItem.genNote] else [])
      = [] := by split <;> rfl
  have hB : List.filterMap lineNumSel
      (if function_signatures cfg.highlight_functions tokens ≠ []
          ∧ cfg.function_style = FStyle.callout then
        OutItem.funcsFoundHeader ::
          (function_signatures cfg.highlight_functions tokens).map
            (fun f => OutItem.funcsFoundEntry f.name f.parameters f.line_num)
          ++ [OutItem.blankLine]
      else []) = [] := by
    split
    · simp [List.filterMap_cons, List.filterMap_append, lineNumSel, hmap1 _]
    · rfl
  have hE : List.filterMap lineNumSel
      (if cfg.hl_lines ≠ [] then [OutItem.hlComment (sortNats cfg.hl_lines)]
        else []) = [] := by split <;> rfl
  have hF : List.filterMap lineNumSel
      (if function_signatures cfg.highlight_functions tokens ≠ []
          ∧ cfg.function_style = FStyle.emphasis then
        OutItem.funcsTrailerHeader ::
          (function_signatures cfg.highlight_functions tokens).map
            (fun f => OutItem.funcsTrailerEntry f.name f.parameters f.line_num)
          ++ [OutItem.blankLine]
      else []) = [] := by
    split
    · simp [List.filterMap_cons, List.filterMap_append, lineNumSel, hmap2 _]
    · rfl
  by_cases hb : (renderLoop cfg tokens
      (function_signatures cfg.highlight_functions tokens)
      (tokens.length + 1) 0 [] cfg.linenostart).2.1 = []
  · have hT : List.filterMap lineNumSel
        (if (renderLoop cfg tokens
            (function_signatures cfg.highlight_functions tokens)
            (tokens.length + 1) 0 [] cfg.linenostart).2.1 ≠ [] then
          [_write_line cfg
            (renderLoop cfg tokens
              (function_signatures cfg.highlight_functions tokens)
              (tokens.length + 1) 0 [] cfg.linenostart).2.1
            (renderLoop cfg tokens
              (function_signatures cfg.highlight_functions tokens)
              (tokens.length + 1) 0 [] cfg.linenostart).2.2
            (some (tokens, tokens.length - 1))]
        else []) = [] := by
      rw [if_neg (by simpa using hb)]
      rfl
    refine ⟨(renderLoop cfg tokens
        (function_signatures cfg.highlight_functions tokens)
        (tokens.length + 1) 0 [] cfg.linenostart).2.2, ?_⟩
    simp only [assignedNumbers, List.filterMap_append, hA, hB, hE, hF, hT,
      List.nil_append, List.append_nil, List.filterMap_cons, List.filterMap_nil]
    have hfence : List.filterMap lineNumSel [OutItem.fenceOpen] = [] := rfl
    have hfence2 : List.filterMap lineNumSel [OutItem.fenceCloseFinal] = [] := rfl
    simp only [hfence, hfence2, List.nil_append, List.append_nil, lineNumSel]
    exact renderLoop_numsOk cfg tokens _ _ 0 [] cfg.linenostart
  · have hT : List.filterMap lineNumSel
        (if (renderLoop cfg tokens
            (function_signatures cfg.highlight_functions tokens)
            (tokens.length + 1) 0 [] cfg.linenostart).2.1 ≠ [] then
          [_write_line cfg
            (renderLoop cfg tokens
              (function_signatures cfg.highlight_functions tokens)
              (tokens.length + 1) 0 [] cfg.linenostart).2.1
            (renderLoop cfg tokens
              (function_signatures cfg.highlight_functions tokens)
              (tokens.length + 1) 0 [] cfg.linenostart).2.2
            (some (tokens, tokens.length - 1))]
        else [])
        = [(renderLoop cfg tokens
            (function_signatures cfg.highlight_functions tokens)
            (tokens.length + 1) 0 [] cfg.linenostart).2.2] := by
      rw [if_pos (by simpa using hb)]
      rfl
    refine ⟨(renderLoop cfg tokens
        (function_signatures cfg.highlight_functions tokens)
        (tokens.length + 1) 0 [] cfg.linenostart).2.2, ?_⟩
    simp only [assignedNumbers, List.filterMap_append, hA, hB, hE, hF, hT,
      List.nil_append, List.append_nil, List.filterMap_cons, List.filterMap_nil]
    have hfence : List.filterMap lineNumSel [OutItem.fenceOpen] = [] := rfl
    have hfence2 : List.filterMap lineNumSel [OutItem.fenceCloseFinal] = [] := rfl
    simp only [hfence, hfence2, List.nil_append, List.append_nil, lineNumSel]
    exact NumsOk.app (renderLoop_numsOk cfg tokens _ _ 0 [] cfg.linenostart)
      (NumsOk.stay _)

/-- Witness for C3 (amended): the first assigned number on a concrete
render equals `linenostart`. -/
theorem c3_line_numbers_witness : (1 : Nat) = cfgCallout.linenostart :=
  (c3_line_numbers_amended exCallout cfgCallout).2 1 (by decide)

/-
Highlight-annotation accounting (C7).
-/

/-- The marking discipline of one write: if it is a code line whose number
is in `hl_lines`, it carries the highlight mark unless the emphasis-style
function marker claimed the line. -/
def LineMarkOk (cfg : Config) (it : OutItem) : Prop :=
  ∀ num s c r m, it = OutItem.codeLine num s c r m →
    cfg.hl_lines.contains num = true →
    m = LineMark.highlighted ∨ ∃ fn, m = LineMark.funcMarker fn

/-- The two-level marking conditional yields the highlight mark or a
function marker whenever the highlight condition holds. -/
theorem ite_mark (A B : Prop) [Decidable A] [Decidable B] (x : Str) (hB : B) :
    (if A then LineMark.funcMarker x
      else if B then LineMark.highlighted else LineMark.plain)
        = LineMark.highlighted
    ∨ ∃ fn, (if A then LineMark.funcMarker x
      else if B then LineMark.highlighted else LineMark.plain)
        = LineMark.funcMarker fn := by
  by_cases hA : A
  · rw [if_pos hA]
    exact Or.inr ⟨x, rfl⟩
  · rw [if_neg hA, if_pos hB]
    exact Or.inl rfl

/-- `_write_line` respects the marking discipline. -/
theorem write_line_mark (cfg : Config) (lineParts : List LinePart) (n : Nat)
    (tokCtx : Option (List Token × Nat)) :
    LineMarkOk cfg (_write_line cfg lineParts n tokCtx) := by
  intro num s c r m he hc
  unfold _write_line at he
  dsimp only at he
  injection he with h1 h2 h3 h4 h5
  rw [← h5]
  rw [← h1] at hc
  exact ite_mark _ _ _ hc

/-- Splice writes respect the marking discipline (they are not code lines). -/
theorem spliceItems_marks (cfg : Config) (f : SigRec) (n : Nat) :
    ∀ it ∈ spliceItems cfg f n, LineMarkOk cfg it := by
  intro it hmem
  unfold spliceItems at hmem
  split at hmem <;> simp at hmem <;>
    rcases hmem with rfl | rfl | rfl | rfl <;>
    (intro num s c r m he hc; simp at he)

/-- Middle-part writes respect the marking discipline. -/
theorem emitMid_marks (cfg : Config) (tokens : List Token) (idx : Nat)
    (ttype : TType) :
    ∀ ps n it, it ∈ (emitMid cfg tokens idx ttype ps n).1 → LineMarkOk cfg it := by
  intro ps
  induction ps with
  | nil => intro n it hmem; simp [emitMid] at hmem
  | cons p pt ih =>
    intro n it hmem
    rcases List.mem_cons.mp hmem with rfl | htail
    · exact write_line_mark cfg _ _ _
    · exact ih (n + 1) it htail

/-- All writes of the token loop respect the marking discipline. -/
theorem renderLoop_marks (cfg : Config) (tokens : List Token)
    (sigs : List SigRec) :
    ∀ fuel idx cur n it, it ∈ (renderLoop cfg tokens sigs fuel idx cur n).1 →
      LineMarkOk cfg it := by
  intro fuel
  induction fuel with
  | zero => intro idx cur n it hmem; simp [renderLoop] at hmem
  | succ g ih =>
    intro idx cur n it hmem
    rw [renderLoop] at hmem
    dsimp only at hmem
    split at hmem
    · split at hmem
      · rename_i f hf
        rcases List.mem_append.mp hmem with hmem1 | hrest
        · rcases List.mem_append.mp hmem1 with hflush | hsplice
          · split at hflush
            · rcases List.mem_singleton.mp hflush with rfl
              exact write_line_mark cfg _ _ _
            · simp at hflush
          · exact spliceItems_marks cfg f n it hsplice
        · exact ih f.end_idx [] n it hrest
      · split at hmem
        · split at hmem
          · simp at hmem
          · rename_i p0 restParts heq
            rcases List.mem_cons.mp hmem with rfl | htail
            · exact write_line_mark cfg _ _ _
            · rcases List.mem_append.mp htail with hmid | hrest
              · exact emitMid_marks cfg tokens idx _ _ _ it hmid
              · exact ih (idx + 1) _ _ it hrest
        · exact ih (idx + 1) _ n it hmem
    · simp at hmem

/-- C7 (amended): every emitted line whose assigned number is in
`hl_lines` carries the highlight annotation, unless the emphasis-style
function marker claimed the line (which takes precedence). -/
theorem c7_highlight_amended :
    ∀ tokens cfg it, it ∈ format_unencoded cfg tokens →
      ∀ num s c r m, it = OutItem.codeLine num s c r m →
        cfg.hl_lines.contains num = true →
        m = LineMark.highlighted ∨ ∃ fn, m = LineMark.funcMarker fn := by
  intro tokens cfg it hmem
  suffices h : LineMarkOk cfg it from h
  unfold format_unencoded at hmem
  dsimp only at hmem
  rcases List.mem_append.mp hmem with hm1 | hH
  rotate_left
  · split at hH
    · rcases List.mem_cons.mp hH with rfl | hH2
      · intro num s c r m he hc; simp at he
      · rcases List.mem_append.mp hH2 with hH3 | hH4
        · obtain ⟨f, _, rfl⟩ := List.mem_map.mp hH3
          intro num s c r m he hc; simp at he
        · rcases List.mem_singleton.mp hH4 with rfl
          intro num s c r m he hc; simp at he
    · simp at hH
  rcases List.mem_append.mp hm1 with hm2 | hG
  rotate_left
  · split at hG
    · rcases List.mem_singleton.mp hG with rfl
      intro num s c r m he hc; simp at he
    · simp at hG
  rcases List.mem_append.mp hm2 with hm3 | hF
  rotate_left
  · rcases List.mem_singleton.mp hF with rfl
    intro num s c r m he hc; simp at he
  rcases List.mem_append.mp hm3 with hm4 | hE
  rotate_left
  · split at hE
    · rcases List.mem_singleton.mp hE with rfl
      exact write_line_mark cfg _ _ _
    · simp at hE
  rcases List.mem_append.mp hm4 with hm5 | hD
  rotate_left
  · exact renderLoop_marks cfg tokens _ _ 0 [] cfg.linenostart it hD
  rcases List.mem_append.mp hm5 with hm6 | hC
  rotate_left
  · rcases List.mem_singleton.mp hC with rfl
    intro num s c r m he hc; simp at he
  rcases List.mem_append.mp hm6 with hA | hB
  · split at hA
    · rcases List.mem_cons.mp hA with rfl | hA2
      · intro num s c r m he hc; simp at he
      · rcases List.mem_singleton.mp hA2 with rfl
        intro num s c r m he hc; simp at he
    · simp at hA
  · split at hB
    · rcases List.mem_cons.mp hB with rfl | hB2
      · intro num s c r m he hc; simp at he
      · rcases List.mem_append.mp hB2 with hB3 | hB4
        · obtain ⟨f, _, rfl⟩ := List.mem_map.mp hB3
          intro num s c r m he hc; simp at he
        · rcases List.mem_singleton.mp hB4 with rfl
          intro num s c r m he hc; simp at he
    · simp at hB

/-- Witness for C7 (amended) on a concrete highlighted line. -/
theorem c7_witness :
    LineMark.highlighted = LineMark.highlighted
    ∨ ∃ fn, LineMark.highlighted = LineMark.funcMarker fn :=
  c7_highlight_amended exXNl cfgHl1
    (OutItem.codeLine 1 false "x".toList "x".toList LineMark.highlighted)
    (by decide) 1 false "x".toList "x".toList LineMark.highlighted rfl (by decide)

/-
Concatenation fidelity (C1).
-/

/-- Re-joining line pieces with newlines (inverse of `splitNl`). -/
def joinNl : List Str → Str
  | [] => []
  | p :: ps =>
    match ps with
    | [] => p
    | _ :: _ => p ++ '\n' :: joinNl ps

/-- Each middle piece contributes its text plus one newline. -/
def joinMid (ms : List Str) : Str := (ms.map (fun p => p ++ ['\n'])).flatten

/-- Unfolding equation for `splitNl` on a cons. -/
theorem splitNl_cons (c : Char) (t q : Str) (qs : List Str)
    (h : splitNl t = q :: qs) :
    splitNl (c :: t) = if c = '\n' then [] :: q :: qs else (c :: q) :: qs := by
  simp only [splitNl]
  rw [h]

/-- `splitNl` never returns the empty list. -/
theorem splitNl_ne_nil (s : Str) : splitNl s ≠ [] := by
  induction s with
  | nil => simp [splitNl]
  | cons c t ih =>
    rcases h : splitNl t with _ | ⟨q, qs⟩
    · exact absurd h ih
    · rw [splitNl_cons c t q qs h]
      split <;> simp

/-- `joinNl` undoes `splitNl`. -/
theorem joinNl_splitNl (s : Str) : joinNl (splitNl s) = s := by
  induction s with
  | nil => rfl
  | cons c t ih =>
    rcases h : splitNl t with _ | ⟨p, ps⟩
    · exact absurd h (splitNl_ne_nil t)
    · rw [h] at ih
      rw [splitNl_cons c t p ps h]
      by_cases hc : c = '\n'
      · subst hc
        rw [if_pos rfl]
        simpa [joinNl] using ih
      · rw [if_neg hc]
        cases ps with
        | nil =>
          simp [joinNl] at ih ⊢
          exact ih
        | cons q qs =>
          simp [joinNl] at ih ⊢
          exact ih

/-- The pieces of `splitNl` contain no newline. -/
theorem splitNl_no_nl (s : Str) : ∀ p ∈ splitNl s, p.contains '\n' = false := by
  induction s with
  | nil =>
    intro p hp
    simp [splitNl] at hp
    subst hp
    rfl
  | cons c t ih =>
    intro p hp
    rcases h : splitNl t with _ | ⟨q, qs⟩
    · exact absurd h (splitNl_ne_nil t)
    · rw [splitNl_cons c t q qs h] at hp
      by_cases hc : c = '\n'
      · subst hc
        rw [if_pos rfl] at hp
        rcases List.mem_cons.mp hp with rfl | hp2
        · rfl
        · exact ih p (by rw [h]; exact hp2)
      · rw [if_neg hc] at hp
        rcases List.mem_cons.mp hp with rfl | hp2
        · have hq : q.contains '\n' = false :=
            ih q (by rw [h]; exact List.mem_cons_self q qs)
          simp only [List.contains_cons, hq, Bool.or_false]
          simpa using fun hcc => hc hcc.symm
        · exact ih p (by rw [h]; exact List.mem_cons_of_mem q hp2)

/-- Splitting a newline-free and a newline-containing piece list back
together: the whole equals middles plus the last piece. -/
theorem joinNl_eq_mid_last :
    ∀ (rest : List Str), rest ≠ [] →
      joinNl rest = joinMid rest.dropLast ++ rest.getLast?.getD [] := by
  intro rest
  induction rest with
  | nil => intro h; simp at h
  | cons q qs ih =>
    intro _
    cases qs with
    | nil => simp [joinNl, joinMid]
    | cons r rs =>
      have hih := ih (by simp)
      simp only [joinNl] at hih ⊢
      rw [hih]
      simp [joinMid, List.append_assoc]

/-- `mkPart` stores the raw piece unchanged. -/
theorem mkPart_raw (cfg : Config) (ttype : TType) (piece : Str) :
    (mkPart cfg ttype piece).raw = piece := by
  unfold mkPart
  split
  · dsimp only
    split <;> rfl
  · rfl

/-- The markup-free text of a pending line. -/
def rawOf (lineParts : List LinePart) : Str := (lineParts.map LinePart.raw).flatten

/-- Well-formedness of pending-line pieces: non-empty and newline-free. -/
def PartsWf (lineParts : List LinePart) : Prop :=
  ∀ p ∈ lineParts, p.raw ≠ [] ∧ p.raw.contains '\n' = false

/-- The raw text contributed by one `_write_line` item. -/
theorem lineRawSel_write_line (cfg : Config) (lineParts : List LinePart)
    (n : Nat) (tokCtx : Option (List Token × Nat)) :
    lineRawSel (_write_line cfg lineParts n tokCtx) = rawOf lineParts ++ "\n".toList := rfl

/-- `"\n".toList` is the singleton newline. -/
theorem nlToList : "\n".toList = ['\n'] := rfl

/-- `strippedOf` distributes over append. -/
theorem strippedOf_append (a b : List OutItem) :
    strippedOf (a ++ b) = strippedOf a ++ strippedOf b := by
  simp [strippedOf, List.map_append, List.flatten_append]

/-- `strippedOf` on a cons. -/
theorem strippedOf_cons (it : OutItem) (l : List OutItem) :
    strippedOf (it :: l) = lineRawSel it ++ strippedOf l := by
  simp [strippedOf]

/-- `rawOf` distributes over append. -/
theorem rawOf_append (a b : List LinePart) :
    rawOf (a ++ b) = rawOf a ++ rawOf b := by
  simp [rawOf, List.map_append, List.flatten_append]

/-- Conditionally appending a piece adds exactly its raw text. -/
theorem rawOf_if_append (cfg : Config) (ttype : TType) (cur : List LinePart)
    (p : Str) :
    rawOf (if p ≠ [] then cur ++ [mkPart cfg ttype p] else cur)
      = rawOf cur ++ p := by
  split
  · rw [rawOf_append]
    simp [rawOf, mkPart_raw]
  · rename_i hp
    simp at hp
    subst hp
    simp

/-- A conditional one-piece pending line carries exactly the piece. -/
theorem rawOf_if_single (cfg : Config) (ttype : TType) (p : Str) :
    rawOf (if p ≠ [] then [mkPart cfg ttype p] else []) = p := by
  split
  · simp [rawOf, mkPart_raw]
  · rename_i hp
    simp at hp
    subst hp
    rfl

/-- The stripped text of the middle-parts loop: each piece plus a newline. -/
theorem emitMid_stripped (cfg : Config) (tokens : List Token) (idx : Nat)
    (ttype : TType) :
    ∀ ps n, strippedOf (emitMid cfg tokens idx ttype ps n).1 = joinMid ps := by
  intro ps
  induction ps with
  | nil => intro n; rfl
  | cons p pt ih =>
    intro n
    have hstep : (emitMid cfg tokens idx ttype (p :: pt) n).1
        = _write_line cfg (if p ≠ [] then [mkPart cfg ttype p] else []) n
            (some (tokens, idx))
          :: (emitMid cfg tokens idx ttype pt (n + 1)).1 := rfl
    rw [hstep, strippedOf_cons, lineRawSel_write_line, rawOf_if_single, ih]
    simp [joinMid, nlToList, List.append_assoc]

/-- Length of `splitNl`: one piece per newline plus one. -/
theorem splitNl_length (s : Str) : (splitNl s).length = s.count '\n' + 1 := by
  induction s with
  | nil => rfl
  | cons c t ih =>
    rcases h : splitNl t with _ | ⟨q, qs⟩
    · exact absurd h (splitNl_ne_nil t)
    · rw [splitNl_cons c t q qs h]
      rw [h] at ih
      by_cases hc : c = '\n'
      · subst hc
        rw [if_pos rfl]
        simp [List.count_cons] at ih ⊢
        omega
      · rw [if_neg hc]
        simp [List.count_cons, hc] at ih ⊢
        omega

/-- A newline-containing text splits into at least two pieces. -/
theorem splitNl_tail_ne_nil (v p0 : Str) (rest : List Str)
    (hcv : v.contains '\n' = true) (heq : splitNl v = p0 :: rest) :
    rest ≠ [] := by
  have hlen := splitNl_length v
  rw [heq] at hlen
  have hmem : '\n' ∈ v := by
    rcases List.contains_iff_exists_mem_beq.mp hcv with ⟨a, ha, hbeq⟩
    have hae : '\n' = a := by simpa using hbeq
    exact hae ▸ ha
  have hpos : 0 < v.count '\n' := List.count_pos_iff.mpr hmem
  intro hrest
  subst hrest
  simp at hlen
  omega

/-- Dropping one more token peels off exactly its text. -/
theorem concatTexts_cons (x : Token) (l : List Token) :
    concatTexts (x :: l) = x.2 ++ concatTexts l := rfl

theorem concatTexts_drop (tokens : List Token) (idx : Nat)
    (h : idx < tokens.length) :
    concatTexts (tokens.drop idx)
      = (tokAt tokens idx).2 ++ concatTexts (tokens.drop (idx + 1)) := by
  have hat : tokAt tokens idx = tokens[idx] := by
    simp [tokAt, List.getD_eq_getElem?_getD, List.getElem?_eq_getElem h]
  rw [List.drop_eq_getElem_cons h, concatTexts_cons, hat]

/-- `contains` distributes over append. -/
theorem contains_append (a b : Str) (c : Char) :
    (a ++ b).contains c = (a.contains c || b.contains c) := by
  induction a with
  | nil => simp
  | cons x t ih => simp [List.contains_cons, ih, Bool.or_assoc]

/-- The raw text of well-formed pending pieces has no newline. -/
theorem rawOf_no_nl (lineParts : List LinePart) (h : PartsWf lineParts) :
    (rawOf lineParts).contains '\n' = false := by
  induction lineParts with
  | nil => rfl
  | cons p t ih =>
    have hp := h p (List.mem_cons_self p t)
    have ht := ih (fun q hq => h q (List.mem_cons_of_mem p hq))
    have hr : rawOf (p :: t) = p.raw ++ rawOf t := rfl
    rw [hr, contains_append, hp.2, ht]
    rfl

/-- The raw text of a non-empty well-formed pending line is non-empty. -/
theorem rawOf_ne_nil (lineParts : List LinePart) (h : PartsWf lineParts)
    (hne : lineParts ≠ []) : rawOf lineParts ≠ [] := by
  cases lineParts with
  | nil => exact absurd rfl hne
  | cons p t =>
    have hp := h p (List.mem_cons_self p t)
    have hr : rawOf (p :: t) = p.raw ++ rawOf t := rfl
    rw [hr]
    simp [hp.1]

/-- The empty pending line is well-formed. -/
theorem partsWf_nil : PartsWf [] := by
  intro p hp
  simp at hp

/-- Appending one good piece preserves well-formedness. -/
theorem partsWf_append_single (cur : List LinePart) (hcur : PartsWf cur)
    (part : LinePart) (h1 : part.raw ≠ []) (h2 : part.raw.contains '\n' = false) :
    PartsWf (cur ++ [part]) := by
  intro p hp
  rcases List.mem_append.mp hp with h | h
  · exact hcur p h
  · rcases List.mem_singleton.mp h with rfl
    exact ⟨h1, h2⟩

/-- The last piece (with default) of a non-empty list is a member. -/
theorem getLastD_mem {α : Type} (l : List α) (hl : l ≠ []) (d : α) :
    l.getLast?.getD d ∈ l := by
  rw [List.getLast?_eq_getLast l hl, Option.getD_some]
  exact List.getLast_mem hl

/-- Fidelity of the token loop under the emphasis style: the stripped text
emitted so far plus the pending raw text equals the already-pending raw
text plus the text of the remaining tokens, and the pending line stays
well-formed. -/
theorem renderLoop_stripped (cfg : Config) (tokens : List Token)
    (sigs : List SigRec) (hsty : cfg.function_style = FStyle.emphasis) :
    ∀ fuel idx cur n, tokens.length - idx < fuel → PartsWf cur →
      (strippedOf (renderLoop cfg tokens sigs fuel idx cur n).1
          ++ rawOf (renderLoop cfg tokens sigs fuel idx cur n).2.1
        = rawOf cur ++ concatTexts (tokens.drop idx))
      ∧ PartsWf (renderLoop cfg tokens sigs fuel idx cur n).2.1 := by
  intro fuel
  induction fuel with
  | zero => intro idx cur n hfuel hwf; omega
  | succ g ih =>
    intro idx cur n hfuel hwf
    rw [renderLoop]
    dsimp only
    split
    · rename_i hidx
      split
      · rename_i f heq
        exfalso
        rcases hfind : sigs.find? (fun f2 => f2.start_idx = idx) with _ | f2 <;>
          (try rw [hfind] at heq) <;> (try dsimp only at heq) <;>
          exact Option.noConfusion heq
      · split
        · rename_i hnl
          split
          · rename_i heq0
            exact absurd heq0 (splitNl_ne_nil _)
          · rename_i p0 restParts heq
            have hrne : restParts ≠ [] :=
              splitNl_tail_ne_nil (tokAt tokens idx).2 p0 restParts hnl heq
            have hcur2wf : PartsWf
                (if restParts.getLast?.getD [] ≠ []
                  then [mkPart cfg (tokAt tokens idx).1 (restParts.getLast?.getD [])]
                  else []) := by
              split
              · rename_i hne2
                intro p hp
                rcases List.mem_singleton.mp hp with rfl
                refine ⟨by rw [mkPart_raw]; exact hne2, ?_⟩
                rw [mkPart_raw]
                exact splitNl_no_nl (tokAt tokens idx).2 _
                  (by rw [heq]
                      exact List.mem_cons_of_mem _ (getLastD_mem restParts hrne []))
              · exact partsWf_nil
            have hih := ih (idx + 1)
              (if restParts.getLast?.getD [] ≠ []
                then [mkPart cfg (tokAt tokens idx).1 (restParts.getLast?.getD [])]
                else [])
              (emitMid cfg tokens idx (tokAt tokens idx).1 restParts.dropLast (n + 1)).2
              (by omega) hcur2wf
            refine ⟨?_, hih.2⟩
            have hih1 := hih.1
            rw [rawOf_if_single] at hih1
            have hv : (tokAt tokens idx).2
                = p0 ++ '\n' :: (joinMid restParts.dropLast
                    ++ restParts.getLast?.getD []) := by
              conv_lhs => rw [← joinNl_splitNl (tokAt tokens idx).2]
              rw [heq]
              cases restParts with
              | nil => exact absurd rfl hrne
              | cons r rs =>
                have hstep : joinNl (p0 :: r :: rs) = p0 ++ '\n' :: joinNl (r :: rs) := rfl
                rw [hstep, joinNl_eq_mid_last (r :: rs) (by simp)]
            have hsplit1 : strippedOf
                (_write_line cfg
                    (if p0 ≠ [] then cur ++ [mkPart cfg (tokAt tokens idx).1 p0] else cur)
                    n (some (tokens, idx))
                  :: (emitMid cfg tokens idx (tokAt tokens idx).1 restParts.dropLast (n + 1)).1
                  ++ (renderLoop cfg tokens sigs g (idx + 1)
                      (if restParts.getLast?.getD [] ≠ []
                        then [mkPart cfg (tokAt tokens idx).1 (restParts.getLast?.getD [])]
                        else [])
                      (emitMid cfg tokens idx (tokAt tokens idx).1 restParts.dropLast (n + 1)).2).1)
                = (rawOf cur ++ p0 ++ "\n".toList)
                  ++ joinMid restParts.dropLast
                  ++ strippedOf (renderLoop cfg tokens sigs g (idx + 1)
                      (if restParts.getLast?.getD [] ≠ []
                        then [mkPart cfg (tokAt tokens idx).1 (restParts.getLast?.getD [])]
                        else [])
                      (emitMid cfg tokens idx (tokAt tokens idx).1 restParts.dropLast (n + 1)).2).1 := by
              rw [strippedOf_append, strippedOf_cons, lineRawSel_write_line,
                rawOf_if_append, emitMid_stripped]
              try simp [List.append_assoc]
            rw [hsplit1, concatTexts_drop tokens idx hidx, hv]
            rw [List.append_assoc, List.append_assoc, hih1]
            simp [nlToList, List.append_assoc]
        · rename_i hnl
          have hwf2 : PartsWf
              (if (tokAt tokens idx).2 ≠ []
                then cur ++ [mkPart cfg (tokAt tokens idx).1 (tokAt tokens idx).2]
                else cur) := by
            split
            · rename_i hvne
              refine partsWf_append_single cur hwf _ ?_ ?_
              · rw [mkPart_raw]; exact hvne
              · rw [mkPart_raw]
                simpa using hnl
            · exact hwf
          have hih := ih (idx + 1) _ n (by omega) hwf2
          refine ⟨?_, hih.2⟩
          rw [hih.1, rawOf_if_append, concatTexts_drop tokens idx hidx]
          simp [List.append_assoc]
    · rename_i hidx
      refine ⟨?_, hwf⟩
      have hdrop : tokens.drop idx = [] := List.drop_eq_nil_of_le (by omega)
      rw [hdrop]
      simp [strippedOf, concatTexts]

/-- C1 (amended): with the emphasis style (no signature splicing) and an
input whose concatenated text is empty or newline-terminated, the rendered
output with all inline styling and annotation markup stripped reconstructs
exactly the concatenation of the input token texts. -/
theorem c1_fidelity_emphasis :
    ∀ tokens cfg, cfg.function_style = FStyle.emphasis →
      (concatTexts tokens = [] ∨ (concatTexts tokens).getLast? = some '\n') →
      strippedOf (format_unencoded cfg tokens) = concatTexts tokens := by
  intro tokens cfg hsty hend
  unfold format_unencoded
  dsimp only
  have hloop := renderLoop_stripped cfg tokens
    (function_signatures cfg.highlight_functions tokens) hsty
    (tokens.length + 1) 0 [] cfg.linenostart (by omega) partsWf_nil
  have hmap1 : ∀ (l : List SigRec), strippedOf
      (l.map (fun f => OutItem.funcsFoundEntry f.name f.parameters f.line_num))
      = [] := by
    intro l
    induction l with
    | nil => rfl
    | cons a t iht =>
      rw [List.map_cons, strippedOf_cons, iht]
      rfl
  have hmap2 : ∀ (l : List SigRec), strippedOf
      (l.map (fun f => OutItem.funcsTrailerEntry f.name f.parameters f.line_num))
      = [] := by
    intro l
    induction l with
    | nil => rfl
    | cons a t iht =>
      rw [List.map_cons, strippedOf_cons, iht]
      rfl
  have hA : strippedOf
      (if cfg.full then [OutItem.titleLine cfg.title, OutItem.genNote] else [])
      = [] := by split <;> rfl
  have hB : strippedOf
      (if function_signatures cfg.highlight_functions tokens ≠ []
          ∧ cfg.function_style = FStyle.callout then
        OutItem.funcsFoundHeader ::
          (function_signatures cfg.highlight_functions tokens).map
            (fun f => OutItem.funcsFoundEntry f.name f.parameters f.line_num)
          ++ [OutItem.blankLine]
      else []) = [] := by
    split
    · rw [show (OutItem.funcsFoundHeader ::
          (function_signatures cfg.highlight_functions tokens).map
            (fun f => OutItem.funcsFoundEntry f.name f.parameters f.line_num)
          ++ [OutItem.blankLine])
        = OutItem.funcsFoundHeader ::
          ((function_signatures cfg.highlight_functions tokens).map
            (fun f => OutItem.funcsFoundEntry f.name f.parameters f.line_num)
          ++ [OutItem.blankLine]) from rfl]
      rw [strippedOf_cons, strippedOf_append, hmap1 _]
      rfl
    · rfl
  have hE : strippedOf
      (if cfg.hl_lines ≠ [] then [OutItem.hlComment (sortNats cfg.hl_lines)]
        else []) = [] := by split <;> rfl
  have hF : strippedOf
      (if function_signatures cfg.highlight_functions tokens ≠ []
          ∧ cfg.function_style = FStyle.emphasis then
        OutItem.funcsTrailerHeader ::
          (function_signatures cfg.highlight_functions tokens).map
            (fun f => OutItem.funcsTrailerEntry f.name f.parameters f.line_num)
          ++ [OutItem.blankLine]
      else []) = [] := by
    split
    · rw [show (OutItem.funcsTrailerHeader ::
          (function_signatures cfg.highlight_functions tokens).map
            (fun f => OutItem.funcsTrailerEntry f.name f.parameters f.line_num)
          ++ [OutItem.blankLine])
        = OutItem.funcsTrailerHeader ::
          ((function_signatures cfg.highlight_functions tokens).map
            (fun f => OutItem.funcsTrailerEntry f.name f.parameters f.line_num)
          ++ [OutItem.blankLine]) from rfl]
      rw [strippedOf_cons, strippedOf_append, hmap2 _]
      rfl
    · rfl
  by_cases hlast : (renderLoop cfg tokens
      (function_signatures cfg.highlight_functions tokens)
      (tokens.length + 1) 0 [] cfg.linenostart).2.1 = []
  · have hT : strippedOf
        (if (renderLoop cfg tokens
            (function_signatures cfg.highlight_functions tokens)
            (tokens.length + 1) 0 [] cfg.linenostart).2.1 ≠ [] then
          [_write_line cfg
            (renderLoop cfg tokens
              (function_signatures cfg.highlight_functions tokens)
              (tokens.length + 1) 0 [] cfg.linenostart).2.1
            (renderLoop cfg tokens
              (function_signatures cfg.highlight_functions tokens)
              (tokens.length + 1) 0 [] cfg.linenostart).2.2
            (some (tokens, tokens.length - 1))]
        else []) = [] := by
      rw [if_neg (by simpa using hlast)]
      rfl
    have hbody : strippedOf (renderLoop cfg tokens
        (function_signatures cfg.highlight_functions tokens)
        (tokens.length + 1) 0 [] cfg.linenostart).1 = concatTexts tokens := by
      have h1 := hloop.1
      rw [hlast] at h1
      simpa [rawOf, List.drop_zero] using h1
    have hfo : strippedOf [OutItem.fenceOpen] = [] := rfl
    have hfc : strippedOf [OutItem.fenceCloseFinal] = [] := rfl
    simp only [strippedOf_append, hA, hB, hE, hF, hT, hbody, hfo, hfc,
      List.nil_append, List.append_nil]
  · exfalso
    have hwfl := hloop.2
    have hne := rawOf_ne_nil _ hwfl hlast
    have hnonl := rawOf_no_nl _ hwfl
    have hconcat : concatTexts tokens
        = strippedOf (renderLoop cfg tokens
            (function_signatures cfg.highlight_functions tokens)
            (tokens.length + 1) 0 [] cfg.linenostart).1
          ++ rawOf (renderLoop cfg tokens
            (function_signatures cfg.highlight_functions tokens)
            (tokens.length + 1) 0 [] cfg.linenostart).2.1 := by
      have h1 := hloop.1
      rw [List.drop_zero] at h1
      simpa [rawOf] using h1.symm
    rcases hend with hemp | hnlend
    · rw [hconcat] at hemp
      exact hne (List.append_eq_nil.mp hemp).2
    · rw [hconcat] at hnlend
      rw [List.getLast?_append_of_ne_nil _ hne] at hnlend
      have hmem : '\n' ∈ rawOf (renderLoop cfg tokens
          (function_signatures cfg.highlight_functions tokens)
          (tokens.length + 1) 0 [] cfg.linenostart).2.1 :=
        List.mem_of_mem_getLast? (by simp [hnlend])
      have hcontains : (rawOf (renderLoop cfg tokens
          (function_signatures cfg.highlight_functions tokens)
          (tokens.length + 1) 0 [] cfg.linenostart).2.1).contains '\n' = true :=
        List.contains_iff_exists_mem_beq.mpr ⟨'\n', hmem, by simp⟩
      rw [hnonl] at hcontains
      exact Bool.noConfusion hcontains

/-- Witness for C1 (amended) on a concrete newline-terminated stream. -/
theorem c1_fidelity_emphasis_witness :
    strippedOf (format_unencoded defaultConfig exDefLine) = concatTexts exDefLine :=
  c1_fidelity_emphasis exDefLine defaultConfig rfl (Or.inr (by decide))

/-
src/JavaChecker.py: the Line Classifier (C4).
-/

/-- Regular expressions over characters (character classes as predicates),
used to model the `re` pattern of JavaChecker.py. -/
inductive RE
  | emp
  | eps
  | cls (p : Char → Bool)
  | cat (a b : RE)
  | alt (a b : RE)
  | star (a : RE)

/-- Smart concatenation (prunes the empty language and the empty word). -/
def mkCat : RE → RE → RE
  | .emp, _ => .emp
  | _, .emp => .emp
  | .eps, b => b
  | a, .eps => a
  | a, b => .cat a b

/-- Smart alternation (prunes the empty language). -/
def mkAlt : RE → RE → RE
  | .emp, b => b
  | a, .emp => a
  | a, b => .alt a b

/-- Does the language accept the empty word? -/
def nullable : RE → Bool
  | .emp => false
  | .eps => true
  | .cls _ => false
  | .cat a b => nullable a && nullable b
  | .alt a b => nullable a || nullable b
  | .star _ => true

/-- Brzozowski derivative with respect to one character. -/
def derivRE : RE → Char → RE
  | .emp, _ => .emp
  | .eps, _ => .emp
  | .cls p, c => if p c then .eps else .emp
  | .cat a b, c =>
    if nullable a then mkAlt (mkCat (derivRE a c) b) (derivRE b c)
    else mkCat (derivRE a c) b
  | .alt a b, c => mkAlt (derivRE a c) (derivRE b c)
  | .star a, c => mkCat (derivRE a c) (.star a)

/-- Whole-string regular-expression matching by iterated derivatives.
The JavaChecker pattern is anchored (`re.match` with a trailing `$`), so
matching the Python pattern is whole-string matching of the body. -/
def reMatch (r : RE) (s : Str) : Bool :=
  nullable (s.foldl derivRE r)

/-- One literal character. -/
def chrRE (c : Char) : RE := .cls (fun d => d = c)

/-- A literal string. -/
def litRE (s : String) : RE := s.toList.foldr (fun c r => mkCat (chrRE c) r) .eps

/-- Zero or one. -/
def optRE (r : RE) : RE := .alt r .eps

/-- One or more. -/
def plusRE (r : RE) : RE := .cat r (.star r)

/-- Concatenation of a list of pieces. -/
def catAll (rs : List RE) : RE := rs.foldr mkCat .eps

/-- Python `\s` (ASCII model, as elsewhere). -/
def wsC : Char → Bool := Char.isWhitespace

/-- Python `\w` (ASCII model). -/
def wordC (c : Char) : Bool := c.isAlphanum || c = '_'

/-- `[a-zA-Z_$]` (start of a Java identifier or type name). -/
def startC (c : Char) : Bool := c.isAlpha || c = '_' || c = '$'

/-- `[\w$.<>\[\]]` (subsequent characters of a return type). -/
def typeC (c : Char) : Bool :=
  wordC c || c = '$' || c = '.' || c = '<' || c = '>' || c = '[' || c = ']'

/-- `[\w\s,<>?&extends]` (inside a generic-parameter clause; the letters of
`extends` are already word characters). -/
def genC (c : Char) : Bool :=
  wordC c || wsC c || c = ',' || c = '<' || c = '>' || c = '?' || c = '&'

/-- `[\w\s,.<>\[\]]` (inside a throws clause). -/
def throwsC (c : Char) : Bool :=
  wordC c || wsC c || c = ',' || c = '.' || c = '<' || c = '>' || c = '[' || c = ']'

/-- The composed Java method-signature regex of JavaChecker.py
(lines 61-91), as an anchored whole-string pattern: leading `\s*`,
annotations, modifiers, optional generics, return type, whitespace, method
name, parameter list, optional throws clause, and an optional trailing
`{` or `;`.  Capture groups carry no semantics for a boolean match and are
dropped. -/
def javaMethodRegex : RE :=
  catAll
    [ .star (.cls wsC),
      .star (catAll [chrRE '@', plusRE (.cls wordC),
        optRE (catAll [chrRE '(', .star (.cls (fun c => ¬ c = ')')), chrRE ')']),
        plusRE (.cls wsC)]),
      .star (catAll [
        [litRE "public", litRE "private", litRE "protected", litRE "static",
         litRE "final", litRE "abstract", litRE "synchronized", litRE "native",
         litRE "strictfp"].foldr mkAlt .emp,
        plusRE (.cls wsC)]),
      optRE (catAll [chrRE '<', .star (.cls wsC), plusRE (.cls genC),
        .star (.cls wsC), chrRE '>', plusRE (.cls wsC)]),
      .alt (litRE "void") (catAll [.cls startC, .star (.cls typeC)]),
      plusRE (.cls wsC),
      catAll [.cls startC, .star (.cls wordC)],
      .star (.cls wsC),
      chrRE '(', .star (.cls wsC), .star (.cls (fun c => ¬ c = ')')),
      .star (.cls wsC), chrRE ')',
      optRE (catAll [.star (.cls wsC), litRE "throws", plusRE (.cls wsC),
        plusRE (.cls throwsC)]),
      .star (.cls wsC),
      .alt (optRE (chrRE '{')) (optRE (chrRE ';')),
      .star (.cls wsC) ]

/-- Keyword prefixes that are never a method start (JavaChecker.py
lines 24-27). -/
def nonMethodKwsJava : List Str :=
  (["class ", "interface ", "enum ", "import ", "package "]).map String.toList

/-- Statement keywords checked by the fast path (lines 34-38). -/
def statementKwsJava : List Str :=
  (["if ", "if(", "for ", "for(", "while ", "while(", "switch ", "switch(",
    "try ", "try\x7b", "catch ", "catch(", "finally ", "finally\x7b",
    "return ", "throw ", "new ", "super(", "this("]).map String.toList

/-- The pre-regex rejections of `is_java_method_start` (lines 18-48) on the
already-stripped line: empty/comment lines, non-method keyword prefixes,
and statement-keyword prefixes (every statement keyword in the list ends
with `(` or `{` or contains a space, so a prefix match returns False). -/
def earlyRejectJava (line : Str) : Bool :=
  (line.isEmpty || "//".toList.isPrefixOf line || "/*".toList.isPrefixOf line
    || "*".toList.isPrefixOf line)
  || nonMethodKwsJava.any (fun kw => kw.isPrefixOf line)
  || statementKwsJava.any (fun kw => kw.isPrefixOf line
      && (endsW kw "(".toList || endsW kw "\x7b".toList || kw.contains ' '))

/-- `is_java_method_start` (JavaChecker.py lines 6-154).  The final
field-initializer checks (lines 146-150) return False on every path, as
does the fall-through, so the no-match branch is `false`. -/
def is_java_method_start (line0 : Str) : Bool :=
  let line := pyStrip line0
  if earlyRejectJava line then false
  else if reMatch javaMethodRegex line then
    let signature_before_params := line.takeWhile (fun c => ¬ c = '(')
    let is_abstract := isInfixStr "abstract ".toList signature_before_params
    let is_native := isInfixStr "native ".toList signature_before_params
    let ends_with_brace := endsW (pyRStrip line) "\x7b".toList
    let ends_with_semicolon := endsW (pyRStrip line) ";".toList
    if is_abstract then ! ends_with_brace
    else if is_native then ends_with_semicolon && ! ends_with_brace
    else if ends_with_brace then true
    else if ends_with_semicolon then true
    else if ! ends_with_brace && ! ends_with_semicolon then true
    else false
  else false

/-- C4, counterexample: `"throw abstract ()"` matches the declaration
regex, has an abstract modifier before the first `(`, and does not end
with `{`, yet `is_java_method_start` returns `false` (the statement-keyword
fast path rejects it before the regex runs). -/
theorem c4_abstract_native_counterexample :
    is_java_method_start ("throw abstract ()".toList) = false
    ∧ reMatch javaMethodRegex (pyStrip ("throw abstract ()".toList)) = true
    ∧ isInfixStr "abstract ".toList
        ((pyStrip ("throw abstract ()".toList)).takeWhile (fun c => ¬ c = '('))
        = true
    ∧ endsW (pyRStrip (pyStrip ("throw abstract ()".toList))) "\x7b".toList
        = false := by
  refine ⟨by decide, by decide, by decide, by decide⟩

/-- C4 (amended): for any line that passes the fast-path rejections and
matches the declaration regex, an abstract modifier before the first `(`
makes `classify` true iff the line does not end with `{`; a native
modifier (with no abstract one) makes it true iff the line ends with `;`
and not `{`. -/
theorem c4_abstract_native_amended :
    ∀ line0 : Str,
      earlyRejectJava (pyStrip line0) = false →
      reMatch javaMethodRegex (pyStrip line0) = true →
      ((isInfixStr "abstract ".toList
          ((pyStrip line0).takeWhile (fun c => ¬ c = '(')) = true →
        is_java_method_start line0
          = ! endsW (pyRStrip (pyStrip line0)) "\x7b".toList)
      ∧ (isInfixStr "abstract ".toList
          ((pyStrip line0).takeWhile (fun c => ¬ c = '(')) = false →
        isInfixStr "native ".toList
          ((pyStrip line0).takeWhile (fun c => ¬ c = '(')) = true →
        is_java_method_start line0
          = (endsW (pyRStrip (pyStrip line0)) ";".toList
              && ! endsW (pyRStrip (pyStrip line0)) "\x7b".toList))) := by
  intro line0 hearly hmatch
  constructor
  · intro habs
    unfold is_java_method_start
    dsimp only
    simp only [hearly, hmatch, habs]
    simp
  · intro habs hnat
    unfold is_java_method_start
    dsimp only
    simp only [hearly, hmatch, habs, hnat]
    simp

/-- Witness for C4 (amended) at `"public abstract void foo();"`. -/
theorem c4_witness :
    (isInfixStr "abstract ".toList
        ((pyStrip ("public abstract void foo();".toList)).takeWhile
          (fun c => ¬ c = '(')) = true →
      is_java_method_start ("public abstract void foo();".toList)
        = ! endsW (pyRStrip (pyStrip ("public abstract void foo();".toList)))
            "\x7b".toList)
    ∧ (isInfixStr "abstract ".toList
        ((pyStrip ("public abstract void foo();".toList)).takeWhile
          (fun c => ¬ c = '(')) = false →
      isInfixStr "native ".toList
        ((pyStrip ("public abstract void foo();".toList)).takeWhile
          (fun c => ¬ c = '(')) = true →
      is_java_method_start ("public abstract void foo();".toList)
        = (endsW (pyRStrip (pyStrip ("public abstract void foo();".toList)))
            ";".toList
          && ! endsW (pyRStrip (pyStrip ("public abstract void foo();".toList)))
            "\x7b".toList)) :=
  c4_abstract_native_amended ("public abstract void foo();".toList)
    (by decide) (by decide)
